import Mathlib

/-!
# Verification of the agent pool scheduler (`src/bot_manager.py`)

Shallow embedding of `BotManager` from `bot_manager.py`.  The registry
`self.bots_dict` is a Python `dict` keyed by strings: pool keys are the
literal strings `"A1"`, `"A2"`, … (classified by `key.startswith('A')`
and parsed with `int(k[1:])`), caller keys are phone numbers (digit
strings, so they never start with `'A'`).  We embed the key space as an
inductive type `Key` with constructors `pool idx` (for `"A{idx}"`) and
`caller phone`; this is exact on the domain the program runs on, because
the code distinguishes the two namespaces solely by the `'A'` prefix.

A Python `dict` preserves insertion order: assigning to a fresh key
appends, assigning to an existing key updates in place, `del` removes.
We embed it as an association list with exactly those operations.

Timestamps (`time.time()`) are embedded as `Nat`; agent handles
(`Fastchat` instances) as `Nat` identifiers drawn from a fresh-name
counter, since the code treats them as opaque.  Asynchronous scheduling
(`asyncio.run_coroutine_threadsafe` of `_create_bot_async`) is embedded
by a `pending` queue of scheduled pool indices, resolved by a separate
step; fallible external calls (`bot.close()`, the reset signal, the
Supabase lookup) are embedded by Boolean/`Option` oracles.
-/

namespace BotManager

/-- A registry key: `pool i` embeds the string `"A" + str i`
(`key.startswith('A')`, index `int(k[1:])`); `caller p` embeds a phone
number string (never starting with `'A'`). -/
inductive Key where
  | pool (idx : Nat)
  | caller (phone : String)
deriving DecidableEq, Repr

/-- `key.startswith('A')` from the Python code. -/
def Key.isPool : Key → Bool
  | .pool _ => true
  | .caller _ => false

/-- One registry value `[timestamp, bot_instance, active_status]`
(the positional list stored in `self.bots_dict`). -/
structure Slot where
  lastActivity : Nat
  agent : Nat
  active : Bool
deriving DecidableEq, Repr

/-- The registry `self.bots_dict`: a Python dict embedded as an
insertion-ordered association list. -/
abbrev Registry := List (Key × Slot)

/-- Membership / lookup, `self.bots_dict[k]` resp. `k in self.bots_dict`. -/
def lookup (r : Registry) (k : Key) : Option Slot :=
  (r.find? (fun p => decide (p.1 = k))).map (·.2)

/-- `self.bots_dict[k] = v`: update in place if the key exists,
append otherwise (Python dict semantics). -/
def dictInsert (r : Registry) (k : Key) (v : Slot) : Registry :=
  if (lookup r k).isSome then
    r.map (fun p => if p.1 = k then (k, v) else p)
  else
    r ++ [(k, v)]

/-- `del self.bots_dict[k]`. -/
def dictDelete (r : Registry) (k : Key) : Registry :=
  r.filter (fun p => decide (p.1 ≠ k))

/-- The keys of the registry, in dict (insertion) order. -/
def keys (r : Registry) : List Key := r.map (·.1)

/-- `int(k[1:])` for a pool key, nothing for a caller key. -/
def keyIdx : Key → Option Nat
  | .pool i => some i
  | .caller _ => none

/-- `[k for k in self.bots_dict if k.startswith('A')]`, as indices,
in dict order. -/
def poolIdxs (r : Registry) : List Nat :=
  r.filterMap (fun p => keyIdx p.1)

/-- `max([int(k[1:]) for k in self.bots_dict if k.startswith('A')], default=0)`. -/
def maxPoolIdx (r : Registry) : Nat := (poolIdxs r).foldr max 0

/-- The caller entries of the registry
(`[key for key in self.bots_dict if not key.startswith('A')]`). -/
def callerEntries (r : Registry) : Registry :=
  r.filter (fun p => !p.1.isPool)

/-- Observable events produced by the operations (messages sent, agent
calls attempted, creations scheduled/performed).  `closeAttempt` /
`resetSignal` carry the success flag of the underlying fallible agent
call (`try/except` in the code logs a failure and continues). -/
inductive Event where
  | assigned (idx : Nat) (phone : String)
  | scheduledCreate (idx : Nat)
  | created (idx : Nat) (agent : Nat)
  | createFailed (idx : Nat)
  | replied (phone : String)
  | dbTask (phone : String)
  | reactivated (phone : String)
  | closeAttempt (k : Key) (agent : Nat) (ok : Bool)
  | resetSignal (k : Key) (agent : Nat) (ok : Bool)
  | converted (k : Key) (newIdx : Nat)
deriving DecidableEq, Repr

/-- The mutable state of a `BotManager`: the registry `bots_dict`, the
queue of pool-bot creations scheduled on the background event loop (the
`_create_bot_async` coroutines submitted by `run_coroutine_threadsafe`
and not yet run, in submission order), a fresh-name supply for agent
handles, and the customer cache with its statistics. -/
structure BotState where
  bots : Registry
  pending : List Nat
  nextAgent : Nat
  customerCache : List (String × Nat)
  hits : Nat
  misses : Nat
deriving DecidableEq, Repr

/-- `_initialize_bot_pool`: keys `A1`, `A2`, `A3`, each with the current
time (embedded as 0 at boot), a freshly initialized agent and
`active = True`. -/
def initState : BotState :=
  { bots := [(.pool 1, ⟨0, 1, true⟩), (.pool 2, ⟨0, 2, true⟩), (.pool 3, ⟨0, 3, true⟩)]
    pending := []
    nextAgent := 4
    customerCache := []
    hits := 0
    misses := 0 }

/-- `_maintain_bot_pool`: if fewer than 3 pool keys remain, schedule the
creation of a bot under key `A{next_index}` on the background loop
(`run_coroutine_threadsafe(self._create_bot_async(new_key), self.loop)`;
the loop is running, since this is reached from `_process_user_message`
which itself runs on that loop). -/
def maintainBotPool (st : BotState) : BotState × List Event :=
  if (poolIdxs st.bots).length < 3 then
    ({ st with pending := st.pending ++ [maxPoolIdx st.bots + 1] },
      [.scheduledCreate (maxPoolIdx st.bots + 1)])
  else
    (st, [])

/-- `_assign_bot_to_user`: pop the first pool key in dict order
(`extra_keys[0]`), re-insert its value under the caller key, then
`_maintain_bot_pool`.  If no pool key exists, do nothing (no reply, no
fault). -/
def assignBotToUser (phone : String) (st : BotState) : BotState × List Event :=
  match st.bots.find? (fun p => p.1.isPool) with
  | none => (st, [])
  | some (k, slot) =>
    ((maintainBotPool { st with bots := dictInsert (dictDelete st.bots k) (.caller phone) slot }).1,
      (match k with
        | .pool i => [Event.assigned i phone]
        | .caller _ => []) ++
      (maintainBotPool { st with bots := dictInsert (dictDelete st.bots k) (.caller phone) slot }).2)

/-- The `if phone not in self.bots_dict: self._assign_bot_to_user(phone)`
prologue of `_process_user_message`. -/
def assignStage (phone : String) (st : BotState) : BotState × List Event :=
  if (lookup st.bots (.caller phone)).isSome then (st, [])
  else assignBotToUser phone st

/-- `_process_user_message`: assign a bot if the caller has none; then,
if the caller's slot exists and is active, refresh its timestamp,
generate and send the reply, and schedule the customer-data task
(`asyncio.create_task(self._handle_customer_data(...))`).  An inactive
slot (or a failed assignment) falls through with no action. -/
def processUserMessage (phone : String) (now : Nat) (st : BotState) :
    BotState × List Event :=
  match lookup (assignStage phone st).1.bots (.caller phone) with
  | some slot =>
    if slot.active then
      ({ (assignStage phone st).1 with bots := dictInsert (assignStage phone st).1.bots (.caller phone) { slot with lastActivity := now } },
        (assignStage phone st).2 ++ [.replied phone, .dbTask phone])
    else
      ((assignStage phone st).1, (assignStage phone st).2)
  | none => ((assignStage phone st).1, (assignStage phone st).2)

/-- `_create_bot_async` for the oldest scheduled creation being run by
the background loop: on success insert `[time.time(), bot, True]` under
the scheduled key; on an `initialize` exception, log and insert
nothing. -/
def createBotResolve (now : Nat) (ok : Bool) (st : BotState) :
    BotState × List Event :=
  match st.pending with
  | [] => (st, [])
  | idx :: rest =>
    if ok then
      ({ st with
          bots := dictInsert st.bots (.pool idx) ⟨now, st.nextAgent, true⟩
          pending := rest
          nextAgent := st.nextAgent + 1 }, [.created idx st.nextAgent])
    else
      ({ st with pending := rest }, [.createFailed idx])

/-- `_process_bot_command` (a self-sent private-chat message): text
`"/start"` reactivates an existing slot and sends a confirmation; any
other text deactivates an existing slot, silently. -/
def processBotCommand (phone : String) (text : String) (st : BotState) :
    BotState × List Event :=
  if text = "/start" then
    match lookup st.bots (.caller phone) with
    | some slot =>
      ({ st with bots := dictInsert st.bots (.caller phone) { slot with active := true } },
        [.reactivated phone])
    | none => (st, [])
  else
    match lookup st.bots (.caller phone) with
    | some slot =>
      ({ st with bots := dictInsert st.bots (.caller phone) { slot with active := false } },
        [])
    | none => (st, [])

/-- `phone in self.customer_cache` / `self.customer_cache[phone]`. -/
def cacheLookup (c : List (String × Nat)) (phone : String) : Option Nat :=
  (c.find? (fun p => decide (p.1 = phone))).map (·.2)

/-- `_handle_customer_data`: check the cache first (a hit bumps `hits`
and performs no external query); on a miss bump `misses`, perform the
external Supabase lookup/creation — embedded as the oracle `dbResult`,
the customer id it yields, if any — and cache a found id.  Returns the
state, the `customer_id` used, and whether the external lookup ran. -/
def handleCustomerData (phone : String) (dbResult : Option Nat) (st : BotState) :
    BotState × Option Nat × Bool :=
  match cacheLookup st.customerCache phone with
  | some cid => ({ st with hits := st.hits + 1 }, some cid, false)
  | none =>
    let st1 := { st with misses := st.misses + 1 }
    match dbResult with
    | some cid =>
      ({ st1 with customerCache := st1.customerCache ++ [(phone, cid)] }, some cid, true)
    | none => (st1, none, true)

/-- A run of `_handle_customer_data` tasks, each with the outcome its
external lookup would yield. -/
def runCustomerCalls (st : BotState) (calls : List (String × Option Nat)) : BotState :=
  calls.foldl (fun s c => (handleCustomerData c.1 c.2 s).1) st

/-- Specification count of the lookups in `calls` that find their key
already cached, starting from cache `c` (the cache evolves exactly by
storing each found identifier of a missed key). -/
def specHits (c : List (String × Nat)) : List (String × Option Nat) → Nat
  | [] => 0
  | (phone, db) :: rest =>
    match cacheLookup c phone with
    | some _ => 1 + specHits c rest
    | none =>
      match db with
      | some cid => specHits (c ++ [(phone, cid)]) rest
      | none => specHits c rest

/-- `20*60`, the idle threshold of `_monitor_inactive_bots`. -/
def inactiveThreshold : Nat := 20 * 60

/-- `time_since_last_interaction > inactive_threshold`. -/
def isIdle (now : Nat) (s : Slot) : Bool := decide (inactiveThreshold < now - s.lastActivity)

/-- `len([key for key in self.bots_dict if not key.startswith('A')])`,
the per-sweep snapshot `assigned_bot_count`. -/
def assignedCount (r : Registry) : Nat := (callerEntries r).length

/-- `next_index` of the conversion loop: `max(existing_a_keys)+1` when
a pool key exists, `1` otherwise. -/
def convertNextIdx (b : Registry) : Nat :=
  if (poolIdxs b).isEmpty then 1 else maxPoolIdx b + 1

/-- One iteration of the conversion loop of `_monitor_inactive_bots`
for one key of `bots_to_convert`: if the key is still present, attempt
the reset signal (`_send_new_conversation_signal`, failures logged),
compute the next pool index from the pool keys currently present,
insert the agent under that pool key with a fresh timestamp and
`active = True`, and delete the caller key. -/
def convertStep (now : Nat) (resetOk : Key → Bool) (acc : Registry × List Event)
    (k : Key) : Registry × List Event :=
  match lookup acc.1 k with
  | none => acc
  | some slot =>
    (dictDelete
        (dictInsert acc.1 (.pool (convertNextIdx acc.1)) ⟨now, slot.agent, true⟩) k,
      acc.2 ++ [.resetSignal k slot.agent (resetOk k),
        .converted k (convertNextIdx acc.1)])

/-- One iteration of the removal loop of `_monitor_inactive_bots`
(`if key in self.bots_dict: del self.bots_dict[key]`). -/
def removeStep (b : Registry) (k : Key) : Registry :=
  if (lookup b k).isSome then dictDelete b k else b

/-- The caller entries idle past the threshold, in dict order — exactly
the entries the sweep's scan loop marks (for removal when the snapshot
count exceeds 10, for conversion otherwise). -/
def idleCallerEntries (now : Nat) (r : Registry) : Registry :=
  r.filter (fun p => !p.1.isPool && isIdle now p.2)

/-- One sweep of the `while True` body of `_monitor_inactive_bots`:
snapshot `assigned_bot_count`; scan all entries, and for every caller
entry idle past the threshold either attempt `close` and mark it for
removal (count > 10) or mark it for conversion (count ≤ 10); then delete
the marked entries; then run the conversion loop.  With the snapshot
count fixed for the whole sweep exactly one of the two marked lists is
nonempty, so the sweep is the removal pass (with its close attempts) or
the conversion pass. -/
def monitorSweep (now : Nat) (closeOk resetOk : Key → Bool) (st : BotState) :
    BotState × List Event :=
  if 10 < assignedCount st.bots then
    ({ st with bots := (keys (idleCallerEntries now st.bots)).foldl removeStep st.bots },
      (idleCallerEntries now st.bots).map
        (fun p => Event.closeAttempt p.1 p.2.agent (closeOk p.1)))
  else
    ({ st with bots :=
        ((keys (idleCallerEntries now st.bots)).foldl (convertStep now resetOk)
          (st.bots, [])).1 },
      ((keys (idleCallerEntries now st.bots)).foldl (convertStep now resetOk)
        (st.bots, [])).2)

/-- `clear_customer_cache`. -/
def clearCustomerCache (st : BotState) : BotState :=
  { st with customerCache := [], hits := 0, misses := 0 }

/-- One observable transition of the running system: an inbound user
message, the background loop running one scheduled bot creation, one
Idle Monitor sweep, a self-sent command, or a customer-data task. -/
inductive Step : BotState → BotState → Prop
  | msg (st : BotState) (phone : String) (now : Nat) :
      Step st (processUserMessage phone now st).1
  | resolve (st : BotState) (now : Nat) (ok : Bool) :
      Step st (createBotResolve now ok st).1
  | sweep (st : BotState) (now : Nat) (closeOk resetOk : Key → Bool) :
      Step st (monitorSweep now closeOk resetOk st).1
  | command (st : BotState) (phone text : String) :
      Step st (processBotCommand phone text st).1
  | customer (st : BotState) (phone : String) (dbResult : Option Nat) :
      Step st (handleCustomerData phone dbResult st).1

/-- States reachable from boot under any interleaving of operations. -/
inductive Reachable : BotState → Prop
  | init : Reachable initState
  | step {s s' : BotState} : Reachable s → Step s s' → Reachable s'

/-- Sequential (replenishment-resolved) transitions: as `Step`, but every
inbound message is immediately followed by the background loop running
the creation it may have scheduled, successfully, before anything else
happens.  This is the regime in which one "assignment, replenishment
included, completes" before the next operation. -/
inductive SeqStep : BotState → BotState → Prop
  | msg (st : BotState) (phone : String) (now now2 : Nat) :
      SeqStep st (createBotResolve now2 true (processUserMessage phone now st).1).1
  | sweep (st : BotState) (now : Nat) (closeOk resetOk : Key → Bool) :
      SeqStep st (monitorSweep now closeOk resetOk st).1
  | command (st : BotState) (phone text : String) :
      SeqStep st (processBotCommand phone text st).1
  | customer (st : BotState) (phone : String) (dbResult : Option Nat) :
      SeqStep st (handleCustomerData phone dbResult st).1

/-- States reachable from boot when every replenishment resolves before
the next operation. -/
inductive SeqReachable : BotState → Prop
  | init : SeqReachable initState
  | step {s s' : BotState} : SeqReachable s → SeqStep s s' → SeqReachable s'

/-!
## A concrete interleaved run

Three new callers arrive while the scheduled replenishments are still
waiting on the background loop (`run_coroutine_threadsafe` schedules
`_create_bot_async` and returns without waiting); the loop then runs
the three creations.  The second assignment recomputes `next_index`
from a registry in which `A4` does not exist yet, so `A4` is scheduled
twice; the third finds no pool key at all and schedules `A1`, an index
already used at boot.
-/

def cexS1 : BotState := (processUserMessage "111" 0 initState).1
def cexS2 : BotState := (processUserMessage "222" 0 cexS1).1
def cexS3 : BotState := (processUserMessage "333" 0 cexS2).1
def cexS4 : BotState := (createBotResolve 0 true cexS3).1
def cexS5 : BotState := (createBotResolve 0 true cexS4).1
def cexS6 : BotState := (createBotResolve 0 true cexS5).1

/-- The invariant of sequential (replenishment-resolved) operation: no
creation in flight, at least 3 pool slots, distinct registry keys, and
pool indices strictly increasing in dict order. -/
def SeqInv (st : BotState) : Prop :=
  st.pending = [] ∧ 3 ≤ (poolIdxs st.bots).length ∧
  (keys st.bots).Nodup ∧ (poolIdxs st.bots).Pairwise (· < ·)

/-- The event is a close attempt on the given key. -/
def isCloseOf (k : Key) : Event → Bool
  | .closeAttempt k' _ _ => decide (k' = k)
  | _ => false

/-- The event is a reset signal on the given key. -/
def isResetOf (k : Key) : Event → Bool
  | .resetSignal k' _ _ => decide (k' = k)
  | _ => false

/-- A small concrete state used by witnesses: one pool slot and one
deactivated caller slot. -/
def cmdWitnessState : BotState :=
  { bots := [(.pool 2, ⟨0, 2, true⟩), (.caller "777", ⟨5, 9, false⟩)]
    pending := []
    nextAgent := 10
    customerCache := []
    hits := 0
    misses := 0 }

/-- A concrete state used by witnesses of the Idle Monitor theorems:
two pool slots, one fresh caller and one idle caller. -/
def sweepWitnessState : BotState :=
  { bots := [(.pool 4, ⟨0, 4, true⟩), (.pool 5, ⟨0, 5, true⟩),
             (.caller "111", ⟨2000, 1, true⟩), (.caller "222", ⟨0, 2, false⟩)]
    pending := []
    nextAgent := 6
    customerCache := []
    hits := 0
    misses := 0 }

/-- A concrete state used by witnesses of the close path: twelve caller
slots, one of them idle and deactivated. -/
def closeWitnessState : BotState :=
  { bots := [(.caller "p1", ⟨2000, 1, true⟩), (.caller "p2", ⟨2000, 2, true⟩),
             (.caller "p3", ⟨2000, 3, true⟩), (.caller "p4", ⟨2000, 4, true⟩),
             (.caller "p5", ⟨2000, 5, true⟩), (.caller "p6", ⟨2000, 6, true⟩),
             (.caller "p7", ⟨2000, 7, true⟩), (.caller "p8", ⟨2000, 8, true⟩),
             (.caller "p9", ⟨2000, 9, true⟩), (.caller "p10", ⟨2000, 10, true⟩),
             (.caller "p11", ⟨2000, 11, true⟩), (.caller "p12", ⟨0, 12, false⟩)]
    pending := []
    nextAgent := 13
    customerCache := []
    hits := 0
    misses := 0 }

section RegistryLemmas

theorem lookup_nil (k : Key) : lookup [] k = none := rfl

theorem lookup_cons (p : Key × Slot) (r : Registry) (k : Key) :
    lookup (p :: r) k = if p.1 = k then some p.2 else lookup r k := by
  by_cases h : p.1 = k <;> simp [lookup, List.find?_cons, h]

theorem lookup_append_of_none (r s : Registry) (k : Key)
    (h : lookup r k = none) : lookup (r ++ s) k = lookup s k := by
  induction r with
  | nil => rfl
  | cons p r ih =>
    rw [lookup_cons] at h
    by_cases hp : p.1 = k
    · simp [hp] at h
    · rw [if_neg hp] at h
      rw [List.cons_append, lookup_cons, if_neg hp]
      exact ih h

theorem lookup_mapUpdate_self (r : Registry) (k : Key) (v : Slot)
    (h : (lookup r k).isSome) :
    lookup (r.map (fun p => if p.1 = k then (k, v) else p)) k = some v := by
  induction r with
  | nil => simp [lookup] at h
  | cons p r ih =>
    by_cases hp : p.1 = k
    · simp [List.map_cons, hp, lookup_cons]
    · rw [lookup_cons, if_neg hp] at h
      rw [List.map_cons, if_neg hp, lookup_cons, if_neg hp]
      exact ih h

theorem lookup_mapUpdate_ne (r : Registry) (k k' : Key) (v : Slot)
    (h : k' ≠ k) :
    lookup (r.map (fun p => if p.1 = k then (k, v) else p)) k' = lookup r k' := by
  induction r with
  | nil => rfl
  | cons p r ih =>
    by_cases hp : p.1 = k
    · rw [List.map_cons, if_pos hp, lookup_cons, lookup_cons,
        if_neg (show ¬ ((k, v).1 = k') from fun hh => h hh.symm),
        if_neg (show ¬ (p.1 = k') from by rw [hp]; exact fun hh => h hh.symm)]
      exact ih
    · rw [List.map_cons, if_neg hp, lookup_cons, lookup_cons]
      by_cases hp' : p.1 = k'
      · rw [if_pos hp', if_pos hp']
      · rw [if_neg hp', if_neg hp']
        exact ih

theorem lookup_dictInsert (r : Registry) (k k' : Key) (v : Slot) :
    lookup (dictInsert r k v) k' = if k' = k then some v else lookup r k' := by
  unfold dictInsert
  by_cases hs : (lookup r k).isSome
  · rw [if_pos hs]
    by_cases hk : k' = k
    · subst hk
      rw [if_pos rfl]
      exact lookup_mapUpdate_self r k' v hs
    · rw [if_neg hk]
      exact lookup_mapUpdate_ne r k k' v hk
  · rw [if_neg hs]
    have hn : lookup r k = none := Option.not_isSome_iff_eq_none.mp hs
    by_cases hk : k' = k
    · subst hk
      rw [if_pos rfl, lookup_append_of_none r _ _ hn]
      simp [lookup_cons]
    · rw [if_neg hk]
      cases hv : lookup r k' with
      | none =>
        rw [lookup_append_of_none r _ _ hv]
        simp only [lookup_cons, lookup_nil, if_neg (show ¬ ((k, v).1 = k') from
          fun hh => hk hh.symm)]
      | some w =>
        -- the sought key sits in the original part of the list
        induction r with
        | nil => simp [lookup] at hv
        | cons p r ih =>
          rw [lookup_cons] at hv
          rw [lookup_cons] at hn
          by_cases hp : p.1 = k
          · simp [hp] at hn
          · rw [if_neg hp] at hn
            by_cases hp' : p.1 = k'
            · rw [if_pos hp'] at hv
              rw [List.cons_append, lookup_cons, if_pos hp', hv]
            · rw [if_neg hp'] at hv
              rw [List.cons_append, lookup_cons, if_neg hp']
              exact ih (by rw [hn]; simp) hn hv

theorem lookup_dictDelete (r : Registry) (k k' : Key) :
    lookup (dictDelete r k) k' = if k' = k then none else lookup r k' := by
  induction r with
  | nil => simp [dictDelete, lookup_nil]
  | cons p r ih =>
    unfold dictDelete at ih ⊢
    rw [List.filter_cons]
    by_cases hp : p.1 = k
    · rw [if_neg (by simp [hp]), ih]
      by_cases hk : k' = k
      · simp [hk]
      · rw [if_neg hk, if_neg hk, lookup_cons,
          if_neg (show ¬ (p.1 = k') from by rw [hp]; exact fun hh => hk hh.symm)]
    · rw [if_pos (by simp [hp]), lookup_cons]
      by_cases hpk : p.1 = k'
      · rw [if_pos hpk,
          if_neg (show ¬ (k' = k) from fun hh => hp (by rw [hpk, hh])),
          lookup_cons, if_pos hpk]
      · rw [if_neg hpk, ih]
        by_cases hk : k' = k
        · simp [hk]
        · rw [if_neg hk, if_neg hk, lookup_cons, if_neg hpk]

end RegistryLemmas

section KeyLemmas

theorem lookup_isSome_iff_mem (r : Registry) (k : Key) :
    (lookup r k).isSome ↔ k ∈ keys r := by
  induction r with
  | nil => simp [lookup, keys]
  | cons p r ih =>
    rw [lookup_cons]
    show _ ↔ k ∈ p.1 :: keys r
    by_cases hp : p.1 = k
    · simp [hp]
    · rw [if_neg hp, List.mem_cons]
      constructor
      · intro h; exact Or.inr (ih.mp h)
      · rintro (h | h)
        · exact absurd h.symm hp
        · exact ih.mpr h

theorem lookup_eq_none_iff (r : Registry) (k : Key) :
    lookup r k = none ↔ k ∉ keys r := by
  rw [← lookup_isSome_iff_mem, Option.not_isSome_iff_eq_none]

theorem mem_of_lookup_eq_some {r : Registry} {k : Key} {v : Slot}
    (h : lookup r k = some v) : (k, v) ∈ r := by
  induction r with
  | nil => simp [lookup] at h
  | cons p r ih =>
    obtain ⟨a, b⟩ := p
    rw [lookup_cons] at h
    by_cases hp : (a, b).1 = k
    · rw [if_pos hp] at h
      obtain rfl : b = v := Option.some.inj h
      obtain rfl : a = k := hp
      exact List.mem_cons_self _ _
    · rw [if_neg hp] at h
      exact List.mem_cons_of_mem _ (ih h)

theorem keys_mapUpdate (r : Registry) (k : Key) (v : Slot) :
    keys (r.map (fun p => if p.1 = k then (k, v) else p)) = keys r := by
  induction r with
  | nil => rfl
  | cons p r ih =>
    rw [List.map_cons]
    by_cases hp : p.1 = k
    · rw [if_pos hp]
      show k :: keys (r.map _) = p.1 :: keys r
      rw [ih, hp]
    · rw [if_neg hp]
      show p.1 :: keys (r.map _) = p.1 :: keys r
      rw [ih]

theorem keys_dictInsert_mem (r : Registry) (k : Key) (v : Slot)
    (h : (lookup r k).isSome) : keys (dictInsert r k v) = keys r := by
  unfold dictInsert
  rw [if_pos h]
  exact keys_mapUpdate r k v

theorem keys_dictInsert_not_mem (r : Registry) (k : Key) (v : Slot)
    (h : ¬(lookup r k).isSome) : keys (dictInsert r k v) = keys r ++ [k] := by
  unfold dictInsert
  rw [if_neg h]
  show (r ++ [(k, v)]).map _ = _
  rw [List.map_append]
  rfl

theorem keys_dictDelete (r : Registry) (k : Key) :
    keys (dictDelete r k) = (keys r).filter (fun k' => decide (k' ≠ k)) := by
  induction r with
  | nil => rfl
  | cons p r ih =>
    unfold dictDelete at *
    rw [List.filter_cons]
    show _ = List.filter _ (p.1 :: keys r)
    rw [List.filter_cons]
    by_cases hp : p.1 = k
    · rw [if_neg (by simp [hp]), if_neg (by simp [hp])]
      exact ih
    · rw [if_pos (by simp [hp]), if_pos (by simp [hp])]
      show p.1 :: keys _ = _
      rw [ih]

theorem nodup_keys_dictDelete (r : Registry) (k : Key)
    (h : (keys r).Nodup) : (keys (dictDelete r k)).Nodup := by
  rw [keys_dictDelete]
  exact h.filter _

theorem poolIdxs_cons_pool (i : Nat) (v : Slot) (r : Registry) :
    poolIdxs ((Key.pool i, v) :: r) = i :: poolIdxs r := rfl

theorem poolIdxs_cons_caller (ph : String) (v : Slot) (r : Registry) :
    poolIdxs ((Key.caller ph, v) :: r) = poolIdxs r := rfl

theorem poolIdxs_append (r s : Registry) :
    poolIdxs (r ++ s) = poolIdxs r ++ poolIdxs s := by
  unfold poolIdxs
  exact List.filterMap_append r s _

theorem mem_poolIdxs_iff (r : Registry) (n : Nat) :
    n ∈ poolIdxs r ↔ Key.pool n ∈ keys r := by
  induction r with
  | nil => simp [poolIdxs, keys]
  | cons p r ih =>
    obtain ⟨k, v⟩ := p
    cases k with
    | pool i =>
      rw [poolIdxs_cons_pool]
      show _ ↔ Key.pool n ∈ Key.pool i :: keys r
      rw [List.mem_cons, List.mem_cons]
      constructor
      · rintro (rfl | h)
        · exact Or.inl rfl
        · exact Or.inr (ih.mp h)
      · rintro (h | h)
        · exact Or.inl (Key.pool.inj h)
        · exact Or.inr (ih.mpr h)
    | caller ph =>
      rw [poolIdxs_cons_caller]
      show _ ↔ Key.pool n ∈ Key.caller ph :: keys r
      rw [List.mem_cons]
      constructor
      · intro h; exact Or.inr (ih.mp h)
      · rintro (h | h)
        · exact absurd h (by simp)
        · exact ih.mpr h

theorem poolIdxs_eq_keys (r : Registry) :
    poolIdxs r = (keys r).filterMap keyIdx := by
  unfold poolIdxs keys
  rw [List.filterMap_map]
  rfl

theorem poolIdxs_mapUpdate (r : Registry) (k : Key) (v : Slot) :
    poolIdxs (r.map (fun p => if p.1 = k then (k, v) else p)) = poolIdxs r := by
  rw [poolIdxs_eq_keys, keys_mapUpdate, ← poolIdxs_eq_keys]

theorem poolIdxs_dictInsert_mem (r : Registry) (k : Key) (v : Slot)
    (h : (lookup r k).isSome) : poolIdxs (dictInsert r k v) = poolIdxs r := by
  unfold dictInsert
  rw [if_pos h]
  exact poolIdxs_mapUpdate r k v

theorem poolIdxs_dictInsert_pool_not_mem (r : Registry) (n : Nat) (v : Slot)
    (h : ¬(lookup r (.pool n)).isSome) :
    poolIdxs (dictInsert r (.pool n) v) = poolIdxs r ++ [n] := by
  unfold dictInsert
  rw [if_neg h, poolIdxs_append, poolIdxs_cons_pool]
  rfl

theorem poolIdxs_dictInsert_caller_not_mem (r : Registry) (ph : String) (v : Slot)
    (h : ¬(lookup r (.caller ph)).isSome) :
    poolIdxs (dictInsert r (.caller ph) v) = poolIdxs r := by
  unfold dictInsert
  rw [if_neg h, poolIdxs_append, poolIdxs_cons_caller]
  exact List.append_nil _

theorem poolIdxs_dictDelete_caller (r : Registry) (ph : String) :
    poolIdxs (dictDelete r (.caller ph)) = poolIdxs r := by
  induction r with
  | nil => rfl
  | cons p r ih =>
    unfold dictDelete at *
    rw [List.filter_cons]
    obtain ⟨k, v⟩ := p
    by_cases hk : k = Key.caller ph
    · subst hk
      rw [if_neg (by simp), poolIdxs_cons_caller]
      exact ih
    · rw [if_pos (by simp [hk])]
      cases k with
      | pool i => rw [poolIdxs_cons_pool, poolIdxs_cons_pool, ih]
      | caller ph' => rw [poolIdxs_cons_caller, poolIdxs_cons_caller, ih]

theorem dictDelete_eq_self_of_not_mem (r : Registry) (k : Key)
    (h : k ∉ keys r) : dictDelete r k = r := by
  unfold dictDelete
  apply List.filter_eq_self.mpr
  intro p hp
  have : p.1 ≠ k := by
    intro he
    exact h (he ▸ List.mem_map_of_mem (·.1) hp)
  simpa using this

theorem le_foldr_max (n : Nat) (l : List Nat) (h : n ∈ l) :
    n ≤ l.foldr max 0 := by
  induction l with
  | nil => simp at h
  | cons a l ih =>
    rcases List.mem_cons.mp h with rfl | h
    · exact le_max_left _ _
    · exact le_trans (ih h) (le_max_right _ _)

theorem le_maxPoolIdx (r : Registry) (n : Nat) (h : n ∈ poolIdxs r) :
    n ≤ maxPoolIdx r := le_foldr_max n _ h

theorem succ_maxPoolIdx_not_mem (r : Registry) :
    maxPoolIdx r + 1 ∉ poolIdxs r := by
  intro h
  have := le_maxPoolIdx r _ h
  omega

end KeyLemmas

theorem reach_cexS3 : Reachable cexS3 :=
  Reachable.step
    (Reachable.step
      (Reachable.step Reachable.init (Step.msg initState "111" 0))
      (Step.msg cexS1 "222" 0))
    (Step.msg cexS2 "333" 0)

theorem reach_cexS6 : Reachable cexS6 :=
  Reachable.step
    (Reachable.step
      (Reachable.step reach_cexS3 (Step.resolve cexS3 0 true))
      (Step.resolve cexS4 0 true))
    (Step.resolve cexS5 0 true)

section OpLemmas

/-- `_process_user_message` on a caller that already has a slot: the
assignment branch is skipped, and the message is either answered with a
timestamp refresh (active slot) or ignored entirely (inactive slot). -/
theorem processUserMessage_existing (st : BotState) (phone : String) (now : Nat)
    (slot : Slot) (h : lookup st.bots (.caller phone) = some slot) :
    processUserMessage phone now st =
      if slot.active then
        ({ st with bots := dictInsert st.bots (.caller phone) { slot with lastActivity := now } },
          [Event.replied phone, Event.dbTask phone])
      else (st, []) := by
  unfold processUserMessage assignStage
  simp only [h, Option.isSome_some, if_true, List.nil_append]

/-- An inactive caller slot suppresses all effects of an inbound
message: no reply and no state mutation at all. -/
theorem processUserMessage_inactive (st : BotState) (phone : String) (now : Nat)
    (slot : Slot) (h : lookup st.bots (.caller phone) = some slot)
    (ha : slot.active = false) :
    processUserMessage phone now st = (st, []) := by
  rw [processUserMessage_existing st phone now slot h, if_neg (by rw [ha]; simp)]

end OpLemmas

/-- C1: resolving a caller identity is idempotent on the registry: once
a caller key has a slot, a further inbound message from that caller
draws nothing from the pool and moves no slot — the pool keys, the
pending replenishments and every other registry entry are unchanged, and
the caller's underlying agent handle stays the same, so all subsequent
resolves yield the same agent (only the Idle Monitor can reclaim the
slot). -/
theorem resolve_idempotent_on_registry (st : BotState) (phone : String)
    (now : Nat) (slot : Slot)
    (h : lookup st.bots (.caller phone) = some slot) :
    ((lookup (processUserMessage phone now st).1.bots (.caller phone)).map (·.agent)
        = some slot.agent) ∧
    poolIdxs (processUserMessage phone now st).1.bots = poolIdxs st.bots ∧
    (processUserMessage phone now st).1.pending = st.pending ∧
    (∀ k, k ≠ Key.caller phone →
      lookup (processUserMessage phone now st).1.bots k = lookup st.bots k) := by
  rw [processUserMessage_existing st phone now slot h]
  by_cases ha : slot.active
  · rw [if_pos ha]
    refine ⟨?_, ?_, rfl, ?_⟩
    · rw [lookup_dictInsert, if_pos rfl]
      rfl
    · exact poolIdxs_dictInsert_mem _ _ _ (by rw [h]; rfl)
    · intro k hk
      rw [lookup_dictInsert, if_neg hk]
  · rw [if_neg ha]
    exact ⟨by rw [h]; rfl, rfl, rfl, fun k _ => rfl⟩

/-- Witness for C1 at a concrete reachable state: caller `111` holds
agent 1 in `cexS1`, and still holds agent 1 after a further message. -/
theorem resolve_idempotent_on_registry_witness :
    (lookup (processUserMessage "111" 7 cexS1).1.bots (.caller "111")).map (·.agent)
      = some 1 :=
  (resolve_idempotent_on_registry cexS1 "111" 7 ⟨0, 1, true⟩ (by decide)).1

/-- C4 (evidence): in the reachable state `cexS3` the registry holds no
pool key (all three replenishments are still in flight), and an inbound
message from the new caller `555` is dropped silently: the state is
unchanged and no event — neither a reply nor any fault report — is
produced. -/
theorem no_pool_silent_drop :
    Reachable cexS3 ∧
    poolIdxs cexS3.bots = [] ∧
    processUserMessage "555" 100 cexS3 = (cexS3, []) :=
  ⟨reach_cexS3, by decide, by decide⟩

/-- C8: a self-sent `/start` on an existing caller slot reactivates it
(`active=true`, with a confirmation reply); any other self-sent text on
an existing caller slot deactivates it (`active=false`, silently); and
while a caller slot is deactivated, every inbound message from that
caller produces no reply, no timestamp update and no registry mutation
whatsoever. -/
theorem command_and_deactivation (st : BotState) (phone text : String)
    (now : Nat) (slot : Slot)
    (h : lookup st.bots (.caller phone) = some slot) :
    (processBotCommand phone "/start" st =
        ({ st with bots := dictInsert st.bots (.caller phone) { slot with active := true } },
          [Event.reactivated phone])) ∧
    (text ≠ "/start" →
      processBotCommand phone text st =
        ({ st with bots := dictInsert st.bots (.caller phone) { slot with active := false } },
          [])) ∧
    (slot.active = false → processUserMessage phone now st = (st, [])) := by
  refine ⟨?_, ?_, fun ha => processUserMessage_inactive st phone now slot h ha⟩
  · unfold processBotCommand
    rw [if_pos rfl, h]
  · intro ht
    unfold processBotCommand
    rw [if_neg ht, h]

/-- Witness for C8 at a concrete state: caller `777` is deactivated in
`cmdWitnessState`, so an inbound message leaves the state untouched and
produces nothing, while `/start` reactivates the slot. -/
theorem command_and_deactivation_witness :
    processUserMessage "777" 99 cmdWitnessState = (cmdWitnessState, []) ∧
    (lookup (processBotCommand "777" "/start" cmdWitnessState).1.bots
        (.caller "777")).map (·.active) = some true :=
  ⟨(command_and_deactivation cmdWitnessState "777" "hola" 99 ⟨5, 9, false⟩
      (by decide)).2.2 rfl,
   by rw [(command_and_deactivation cmdWitnessState "777" "hola" 99 ⟨5, 9, false⟩
      (by decide)).1]; decide⟩


section CacheLemmas

theorem cacheLookup_cons (p : String × Nat) (c : List (String × Nat))
    (phone : String) :
    cacheLookup (p :: c) phone =
      if p.1 = phone then some p.2 else cacheLookup c phone := by
  by_cases h : p.1 = phone <;> simp [cacheLookup, List.find?_cons, h]

theorem cacheLookup_store (c : List (String × Nat)) (phone : String) (cid : Nat)
    (h : cacheLookup c phone = none) :
    cacheLookup (c ++ [(phone, cid)]) phone = some cid := by
  induction c with
  | nil => rw [List.nil_append, cacheLookup_cons, if_pos rfl]
  | cons p c ih =>
    rw [cacheLookup_cons] at h
    by_cases hp : p.1 = phone
    · simp [hp] at h
    · rw [if_neg hp] at h
      rw [List.cons_append, cacheLookup_cons, if_neg hp]
      exact ih h

theorem handleCustomerData_hit (phone : String) (dbResult : Option Nat)
    (st : BotState) (cid : Nat)
    (h : cacheLookup st.customerCache phone = some cid) :
    handleCustomerData phone dbResult st =
      ({ st with hits := st.hits + 1 }, some cid, false) := by
  unfold handleCustomerData
  rw [h]

theorem handleCustomerData_miss_store (phone : String) (st : BotState) (cid : Nat)
    (h : cacheLookup st.customerCache phone = none) :
    handleCustomerData phone (some cid) st =
      ({ st with misses := st.misses + 1, customerCache := st.customerCache ++ [(phone, cid)] }, some cid, true) := by
  unfold handleCustomerData
  rw [h]

theorem handleCustomerData_miss_none (phone : String) (st : BotState)
    (h : cacheLookup st.customerCache phone = none) :
    handleCustomerData phone none st =
      ({ st with misses := st.misses + 1 }, none, true) := by
  unfold handleCustomerData
  rw [h]

theorem specHits_cons (c : List (String × Nat)) (phone : String) (db : Option Nat)
    (rest : List (String × Option Nat)) :
    specHits c ((phone, db) :: rest)
      = match cacheLookup c phone with
        | some _ => 1 + specHits c rest
        | none => match db with
          | some cid => specHits (c ++ [(phone, cid)]) rest
          | none => specHits c rest := rfl

theorem runCustomerCalls_counters (calls : List (String × Option Nat)) :
    ∀ st : BotState,
      (runCustomerCalls st calls).hits = st.hits + specHits st.customerCache calls ∧
      (runCustomerCalls st calls).misses + specHits st.customerCache calls
        = st.misses + calls.length := by
  induction calls with
  | nil => intro st; simp [runCustomerCalls, specHits]
  | cons c rest ih =>
    intro st
    obtain ⟨phone, db⟩ := c
    have hrun : runCustomerCalls st ((phone, db) :: rest)
        = runCustomerCalls (handleCustomerData phone db st).1 rest := rfl
    cases hc : cacheLookup st.customerCache phone with
    | some cid =>
      have hspec : specHits st.customerCache ((phone, db) :: rest)
          = 1 + specHits st.customerCache rest := by rw [specHits_cons, hc]
      have k1 : (runCustomerCalls { st with hits := st.hits + 1 } rest).hits
          = st.hits + 1 + specHits st.customerCache rest :=
        (ih { st with hits := st.hits + 1 }).1
      have k2 : (runCustomerCalls { st with hits := st.hits + 1 } rest).misses
          + specHits st.customerCache rest = st.misses + rest.length :=
        (ih { st with hits := st.hits + 1 }).2
      rw [hrun, handleCustomerData_hit phone db st cid hc, hspec]
      refine ⟨?_, ?_⟩
      · show (runCustomerCalls { st with hits := st.hits + 1 } rest).hits
            = st.hits + (1 + specHits st.customerCache rest)
        omega
      · show (runCustomerCalls { st with hits := st.hits + 1 } rest).misses
            + (1 + specHits st.customerCache rest)
            = st.misses + ((phone, db) :: rest).length
        rw [List.length_cons]
        omega
    | none =>
      cases db with
      | some cid =>
        have hspec : specHits st.customerCache ((phone, some cid) :: rest)
            = specHits (st.customerCache ++ [(phone, cid)]) rest := by rw [specHits_cons, hc]
        have k1 : (runCustomerCalls { st with misses := st.misses + 1, customerCache := st.customerCache ++ [(phone, cid)] } rest).hits
            = st.hits + specHits (st.customerCache ++ [(phone, cid)]) rest :=
          (ih { st with misses := st.misses + 1, customerCache := st.customerCache ++ [(phone, cid)] }).1
        have k2 : (runCustomerCalls { st with misses := st.misses + 1, customerCache := st.customerCache ++ [(phone, cid)] } rest).misses
            + specHits (st.customerCache ++ [(phone, cid)]) rest
            = st.misses + 1 + rest.length :=
          (ih { st with misses := st.misses + 1, customerCache := st.customerCache ++ [(phone, cid)] }).2
        rw [hrun, handleCustomerData_miss_store phone st cid hc, hspec]
        refine ⟨?_, ?_⟩
        · show (runCustomerCalls { st with misses := st.misses + 1, customerCache := st.customerCache ++ [(phone, cid)] } rest).hits
              = st.hits + specHits (st.customerCache ++ [(phone, cid)]) rest
          omega
        · show (runCustomerCalls { st with misses := st.misses + 1, customerCache := st.customerCache ++ [(phone, cid)] } rest).misses
              + specHits (st.customerCache ++ [(phone, cid)]) rest
              = st.misses + ((phone, some cid) :: rest).length
          rw [List.length_cons]
          omega
      | none =>
        have hspec : specHits st.customerCache ((phone, none) :: rest)
            = specHits st.customerCache rest := by rw [specHits_cons, hc]
        have k1 : (runCustomerCalls { st with misses := st.misses + 1 } rest).hits
            = st.hits + specHits st.customerCache rest :=
          (ih { st with misses := st.misses + 1 }).1
        have k2 : (runCustomerCalls { st with misses := st.misses + 1 } rest).misses
            + specHits st.customerCache rest = st.misses + 1 + rest.length :=
          (ih { st with misses := st.misses + 1 }).2
        rw [hrun, handleCustomerData_miss_none phone st hc, hspec]
        refine ⟨?_, ?_⟩
        · show (runCustomerCalls { st with misses := st.misses + 1 } rest).hits
              = st.hits + specHits st.customerCache rest
          omega
        · show (runCustomerCalls { st with misses := st.misses + 1 } rest).misses
              + specHits st.customerCache rest
              = st.misses + ((phone, none) :: rest).length
          rw [List.length_cons]
          omega

end CacheLemmas

/-- C9: Result Cache round-trip and counter exactness.  A lookup after a
store for the same key returns the stored identifier without performing
the external database lookup again (the query flag is `false` and `hits`
is bumped); the store itself queried exactly once and bumped `misses`;
and over any run of customer-data tasks the hit counter equals the
number of lookups that found their key cached while the miss counter
accounts for exactly the remaining lookups. -/
theorem cache_roundtrip_and_counters (st : BotState) (phone : String)
    (cid : Nat) (db2 : Option Nat) (calls : List (String × Option Nat))
    (hmiss : cacheLookup st.customerCache phone = none) :
    (handleCustomerData phone (some cid) st).2 = (some cid, true) ∧
    (handleCustomerData phone (some cid) st).1.misses = st.misses + 1 ∧
    (handleCustomerData phone (some cid) st).1.hits = st.hits ∧
    (handleCustomerData phone db2 (handleCustomerData phone (some cid) st).1).2
        = (some cid, false) ∧
    (handleCustomerData phone db2 (handleCustomerData phone (some cid) st).1).1.hits
        = st.hits + 1 ∧
    (handleCustomerData phone db2 (handleCustomerData phone (some cid) st).1).1.misses
        = st.misses + 1 ∧
    (runCustomerCalls st calls).hits = st.hits + specHits st.customerCache calls ∧
    (runCustomerCalls st calls).misses + specHits st.customerCache calls
        = st.misses + calls.length := by
  have hstore := handleCustomerData_miss_store phone st cid hmiss
  have hafter : cacheLookup (handleCustomerData phone (some cid) st).1.customerCache
      phone = some cid := by
    rw [hstore]
    exact cacheLookup_store st.customerCache phone cid hmiss
  have hhit := handleCustomerData_hit phone db2 _ cid hafter
  refine ⟨by rw [hstore], by rw [hstore], by rw [hstore], by rw [hhit],
    by rw [hhit, hstore], by rw [hhit, hstore],
    (runCustomerCalls_counters calls st).1, (runCustomerCalls_counters calls st).2⟩

/-- Witness for C9: storing id 42 for caller `555` in the boot state and
looking it up again returns 42 without a second external query; over the
run `[miss on a (stored 1), hit on a]` the counters are 1 and 1. -/
theorem cache_roundtrip_and_counters_witness :
    (handleCustomerData "555" none (handleCustomerData "555" (some 42) initState).1).2
      = (some 42, false) ∧
    (runCustomerCalls initState [("a", some 1), ("a", none)]).hits = 1 ∧
    (runCustomerCalls initState [("a", some 1), ("a", none)]).misses = 1 := by
  exact ⟨(cache_roundtrip_and_counters initState "555" 42 none
    [("a", some 1), ("a", none)] rfl).2.2.2.1, by decide, by decide⟩

section SweepLemmas

theorem convertNextIdx_not_mem (b : Registry) : convertNextIdx b ∉ poolIdxs b := by
  unfold convertNextIdx
  by_cases h : (poolIdxs b).isEmpty
  · rw [if_pos h]
    intro hm
    rw [List.isEmpty_iff] at h
    rw [h] at hm
    simp at hm
  · rw [if_neg h]
    exact succ_maxPoolIdx_not_mem b

theorem convertStep_of_none (now : Nat) (resetOk : Key → Bool)
    (acc : Registry × List Event) (k : Key) (h : lookup acc.1 k = none) :
    convertStep now resetOk acc k = acc := by
  unfold convertStep
  rw [h]

theorem convertStep_of_some (now : Nat) (resetOk : Key → Bool)
    (acc : Registry × List Event) (k : Key) (slot : Slot)
    (h : lookup acc.1 k = some slot) :
    convertStep now resetOk acc k =
      (dictDelete
          (dictInsert acc.1 (.pool (convertNextIdx acc.1)) ⟨now, slot.agent, true⟩) k,
        acc.2 ++ [.resetSignal k slot.agent (resetOk k),
          .converted k (convertNextIdx acc.1)]) := by
  unfold convertStep
  rw [h]

theorem pool_ne_of_not_isPool (x : Key) (hx : x.isPool = false) (n : Nat) :
    Key.pool n ≠ x := by
  cases x with
  | pool i => simp [Key.isPool] at hx
  | caller p => simp

theorem convertStep_preserves_pool (now : Nat) (resetOk : Key → Bool)
    (acc : Registry × List Event) (x : Key) (hx : x.isPool = false)
    (j : Nat) (v : Slot) (hj : lookup acc.1 (.pool j) = some v) :
    lookup (convertStep now resetOk acc x).1 (.pool j) = some v := by
  cases hl : lookup acc.1 x with
  | none => rw [convertStep_of_none now resetOk acc x hl]; exact hj
  | some slot =>
    rw [convertStep_of_some now resetOk acc x slot hl]
    have hjm : j ∈ poolIdxs acc.1 :=
      (mem_poolIdxs_iff _ _).mpr ((lookup_isSome_iff_mem _ _).mp (by rw [hj]; rfl))
    have hne2 : (Key.pool j) ≠ Key.pool (convertNextIdx acc.1) := by
      intro he
      exact convertNextIdx_not_mem acc.1 ((Key.pool.inj he) ▸ hjm)
    show lookup (dictDelete (dictInsert _ _ _) x) (.pool j) = some v
    rw [lookup_dictDelete, if_neg (pool_ne_of_not_isPool x hx j),
      lookup_dictInsert, if_neg hne2]
    exact hj

theorem caller_ne_pool (k' : Key) (hk' : k'.isPool = false) (n : Nat) :
    k' ≠ Key.pool n := by
  cases k' with
  | pool i => simp [Key.isPool] at hk'
  | caller p => simp

theorem convertStep_preserves_caller_none (now : Nat) (resetOk : Key → Bool)
    (acc : Registry × List Event) (x k' : Key) (hk' : k'.isPool = false)
    (h : lookup acc.1 k' = none) :
    lookup (convertStep now resetOk acc x).1 k' = none := by
  cases hl : lookup acc.1 x with
  | none => rw [convertStep_of_none now resetOk acc x hl]; exact h
  | some slot =>
    rw [convertStep_of_some now resetOk acc x slot hl]
    show lookup (dictDelete (dictInsert _ _ _) x) k' = none
    rw [lookup_dictDelete]
    by_cases he : k' = x
    · rw [if_pos he]
    · rw [if_neg he, lookup_dictInsert, if_neg (caller_ne_pool k' hk' _)]
      exact h

theorem convertStep_preserves_caller_some (now : Nat) (resetOk : Key → Bool)
    (acc : Registry × List Event) (x k' : Key) (hk' : k'.isPool = false)
    (hne : k' ≠ x) (v : Slot) (h : lookup acc.1 k' = some v) :
    lookup (convertStep now resetOk acc x).1 k' = some v := by
  cases hl : lookup acc.1 x with
  | none => rw [convertStep_of_none now resetOk acc x hl]; exact h
  | some slot =>
    rw [convertStep_of_some now resetOk acc x slot hl]
    show lookup (dictDelete (dictInsert _ _ _) x) k' = some v
    rw [lookup_dictDelete, if_neg hne, lookup_dictInsert,
      if_neg (caller_ne_pool k' hk' _)]
    exact h

theorem convertStep_events_countP (now : Nat) (resetOk : Key → Bool)
    (acc : Registry × List Event) (x k' : Key) (hne : k' ≠ x) :
    ((convertStep now resetOk acc x).2).countP (isResetOf k')
      = acc.2.countP (isResetOf k') := by
  cases hl : lookup acc.1 x with
  | none => rw [convertStep_of_none now resetOk acc x hl]
  | some slot =>
    rw [convertStep_of_some now resetOk acc x slot hl]
    show (acc.2 ++ _).countP _ = _
    rw [List.countP_append]
    simp [isResetOf, List.countP_cons, Ne.symm hne]

theorem convertStep_events_mono (now : Nat) (resetOk : Key → Bool)
    (acc : Registry × List Event) (x : Key) (e : Event) (h : e ∈ acc.2) :
    e ∈ (convertStep now resetOk acc x).2 := by
  cases hl : lookup acc.1 x with
  | none => rw [convertStep_of_none now resetOk acc x hl]; exact h
  | some slot =>
    rw [convertStep_of_some now resetOk acc x slot hl]
    exact List.mem_append_left _ h

theorem convertStep_pool_mono (now : Nat) (resetOk : Key → Bool)
    (acc : Registry × List Event) (x : Key) (hx : x.isPool = false)
    (j : Nat) (hj : j ∈ poolIdxs acc.1) :
    j ∈ poolIdxs (convertStep now resetOk acc x).1 := by
  have hs : (lookup acc.1 (.pool j)).isSome :=
    (lookup_isSome_iff_mem _ _).mpr ((mem_poolIdxs_iff _ _).mp hj)
  cases hv : lookup acc.1 (.pool j) with
  | none => rw [hv] at hs; simp at hs
  | some v =>
    have hp := convertStep_preserves_pool now resetOk acc x hx j v hv
    exact (mem_poolIdxs_iff _ _).mpr
      ((lookup_isSome_iff_mem _ _).mp (by rw [hp]; rfl))

theorem convertFold_preserves (now : Nat) (resetOk : Key → Bool) (ks : List Key) :
    ∀ (acc : Registry × List Event) (j : Nat) (v : Slot) (k' : Key),
      (∀ x ∈ ks, x.isPool = false) → k'.isPool = false →
      lookup acc.1 (.pool j) = some v → lookup acc.1 k' = none →
      lookup (ks.foldl (convertStep now resetOk) acc).1 (.pool j) = some v ∧
      lookup (ks.foldl (convertStep now resetOk) acc).1 k' = none ∧
      ((ks.foldl (convertStep now resetOk) acc).2).countP (isResetOf k')
        = acc.2.countP (isResetOf k') ∧
      ∀ e ∈ acc.2, e ∈ (ks.foldl (convertStep now resetOk) acc).2 := by
  induction ks with
  | nil => intro acc j v k' _ _ hj hk'; exact ⟨hj, hk', rfl, fun e he => he⟩
  | cons x ks ih =>
    intro acc j v k' hks hk'p hj hk'
    have hx : x.isPool = false := hks x (List.mem_cons_self _ _)
    rw [List.foldl_cons]
    cases hl : lookup acc.1 x with
    | none =>
      rw [convertStep_of_none now resetOk acc x hl]
      exact ih acc j v k' (fun y hy => hks y (List.mem_cons_of_mem _ hy)) hk'p hj hk'
    | some s =>
      have hne : k' ≠ x := by
        intro he
        rw [he, hl] at hk'
        cases hk'
      have h1 := convertStep_preserves_pool now resetOk acc x hx j v hj
      have h2 := convertStep_preserves_caller_none now resetOk acc x k' hk'p hk'
      have hres := ih (convertStep now resetOk acc x) j v k'
        (fun y hy => hks y (List.mem_cons_of_mem _ hy)) hk'p h1 h2
      refine ⟨hres.1, hres.2.1, ?_, ?_⟩
      · rw [hres.2.2.1, convertStep_events_countP now resetOk acc x k' hne]
      · intro e he
        exact hres.2.2.2 e (convertStep_events_mono now resetOk acc x e he)

theorem convertFold_spec (now : Nat) (resetOk : Key → Bool) (ks : List Key) :
    ∀ (acc : Registry × List Event) (k : Key) (slot : Slot),
      k ∈ ks → (∀ x ∈ ks, x.isPool = false) →
      lookup acc.1 k = some slot →
      lookup (ks.foldl (convertStep now resetOk) acc).1 k = none ∧
      (∃ idx, idx ∉ poolIdxs acc.1 ∧
        lookup (ks.foldl (convertStep now resetOk) acc).1 (.pool idx)
          = some ⟨now, slot.agent, true⟩) ∧
      Event.resetSignal k slot.agent (resetOk k)
        ∈ (ks.foldl (convertStep now resetOk) acc).2 ∧
      ((ks.foldl (convertStep now resetOk) acc).2).countP (isResetOf k)
        = acc.2.countP (isResetOf k) + 1 := by
  induction ks with
  | nil => intro acc k slot hm; simp at hm
  | cons x ks ih =>
    intro acc k slot hm hks hl
    have hx : x.isPool = false := hks x (List.mem_cons_self _ _)
    have hkp : k.isPool = false := hks k hm
    by_cases hxk : x = k
    · subst hxk
      rw [List.foldl_cons, convertStep_of_some now resetOk acc x slot hl]
      have h1 : lookup (dictDelete (dictInsert acc.1
            (.pool (convertNextIdx acc.1)) ⟨now, slot.agent, true⟩) x)
            (.pool (convertNextIdx acc.1)) = some ⟨now, slot.agent, true⟩ := by
        rw [lookup_dictDelete, if_neg (pool_ne_of_not_isPool x hx _),
          lookup_dictInsert, if_pos rfl]
      have h2 : lookup (dictDelete (dictInsert acc.1
            (.pool (convertNextIdx acc.1)) ⟨now, slot.agent, true⟩) x) x = none := by
        rw [lookup_dictDelete, if_pos rfl]
      have hpres := convertFold_preserves now resetOk ks
        (dictDelete (dictInsert acc.1
            (.pool (convertNextIdx acc.1)) ⟨now, slot.agent, true⟩) x,
          acc.2 ++ [.resetSignal x slot.agent (resetOk x),
            .converted x (convertNextIdx acc.1)])
        (convertNextIdx acc.1) ⟨now, slot.agent, true⟩ x
        (fun y hy => hks y (List.mem_cons_of_mem _ hy)) hx h1 h2
      refine ⟨hpres.2.1, ⟨convertNextIdx acc.1, convertNextIdx_not_mem acc.1, hpres.1⟩,
        ?_, ?_⟩
      · exact hpres.2.2.2 _ (List.mem_append_right _ (List.mem_cons_self _ _))
      · rw [hpres.2.2.1]
        show (acc.2 ++ _).countP _ = _
        rw [List.countP_append]
        simp [isResetOf, List.countP_cons]
    · have hm' : k ∈ ks := by
        rcases List.mem_cons.mp hm with rfl | h
        · exact absurd rfl hxk
        · exact h
      rw [List.foldl_cons]
      cases hlx : lookup acc.1 x with
      | none =>
        rw [convertStep_of_none now resetOk acc x hlx]
        exact ih acc k slot hm' (fun y hy => hks y (List.mem_cons_of_mem _ hy)) hl
      | some s =>
        have hl' := convertStep_preserves_caller_some now resetOk acc x k hkp
          (fun he => hxk he.symm) slot hl
        have hres := ih (convertStep now resetOk acc x) k slot hm'
          (fun y hy => hks y (List.mem_cons_of_mem _ hy)) hl'
        refine ⟨hres.1, ?_, hres.2.2.1, ?_⟩
        · obtain ⟨idx, hidx1, hidx2⟩ := hres.2.1
          exact ⟨idx,
            fun hmem => hidx1 (convertStep_pool_mono now resetOk acc x hx idx hmem),
            hidx2⟩
        · rw [hres.2.2.2,
            convertStep_events_countP now resetOk acc x k (fun he => hxk he.symm)]

theorem convertFold_no_close (now : Nat) (resetOk : Key → Bool) (ks : List Key) :
    ∀ (acc : Registry × List Event),
      (∀ k a ok, Event.closeAttempt k a ok ∉ acc.2) →
      ∀ k a ok, Event.closeAttempt k a ok ∉ (ks.foldl (convertStep now resetOk) acc).2 := by
  induction ks with
  | nil => intro acc h; exact h
  | cons x ks ih =>
    intro acc h
    rw [List.foldl_cons]
    apply ih
    intro k a ok
    cases hl : lookup acc.1 x with
    | none => rw [convertStep_of_none now resetOk acc x hl]; exact h k a ok
    | some s =>
      rw [convertStep_of_some now resetOk acc x s hl]
      intro hmem
      rcases List.mem_append.mp hmem with hL | hR
      · exact h k a ok hL
      · simp at hR

theorem removeStep_lookup (b : Registry) (x k : Key) :
    lookup (removeStep b x) k = if k = x then none else lookup b k := by
  unfold removeStep
  by_cases hs : (lookup b x).isSome
  · rw [if_pos hs, lookup_dictDelete]
  · rw [if_neg hs]
    by_cases he : k = x
    · rw [if_pos he, he]
      exact Option.not_isSome_iff_eq_none.mp hs
    · rw [if_neg he]

theorem removeFold_none (ks : List Key) :
    ∀ (b : Registry) (k : Key), lookup b k = none →
      lookup (ks.foldl removeStep b) k = none := by
  induction ks with
  | nil => intro b k h; exact h
  | cons x ks ih =>
    intro b k h
    rw [List.foldl_cons]
    apply ih
    rw [removeStep_lookup]
    by_cases he : k = x
    · rw [if_pos he]
    · rw [if_neg he]
      exact h

theorem removeFold_mem (ks : List Key) :
    ∀ (b : Registry) (k : Key), k ∈ ks →
      lookup (ks.foldl removeStep b) k = none := by
  induction ks with
  | nil => intro b k h; simp at h
  | cons x ks ih =>
    intro b k hm
    rw [List.foldl_cons]
    by_cases he : k ∈ ks
    · exact ih _ k he
    · have hkx : k = x := by
        rcases List.mem_cons.mp hm with rfl | h
        · rfl
        · exact absurd h he
      apply removeFold_none
      rw [removeStep_lookup, if_pos hkx]

theorem countP_key_zero (r : Registry) (k : Key) (q : Key × Slot → Bool)
    (h : ∀ p ∈ r, p.1 ≠ k) :
    (r.filter q).countP (fun p => decide (p.1 = k)) = 0 := by
  apply List.countP_eq_zero.mpr
  intro a ha
  have := h a (List.mem_of_mem_filter ha)
  simpa using this

theorem countP_isCloseOf_map (l : Registry) (closeOk : Key → Bool) (k : Key) :
    ((l.map (fun p => Event.closeAttempt p.1 p.2.agent (closeOk p.1))).countP
        (isCloseOf k))
      = l.countP (fun p => decide (p.1 = k)) := by
  induction l with
  | nil => rfl
  | cons p l ih =>
    rw [List.map_cons, List.countP_cons, List.countP_cons, ih]
    rfl

theorem countP_key_filter_one (r : Registry) (q : Key × Slot → Bool) (k : Key)
    (slot : Slot) (hnd : (keys r).Nodup) (hl : lookup r k = some slot)
    (hq : q (k, slot) = true) :
    (r.filter q).countP (fun p => decide (p.1 = k)) = 1 := by
  induction r with
  | nil => simp [lookup] at hl
  | cons p r ih =>
    have hnd2 : (p.1 :: keys r).Nodup := hnd
    rw [lookup_cons] at hl
    by_cases hp : p.1 = k
    · rw [if_pos hp] at hl
      have hps : p = (k, slot) := by
        obtain ⟨a, b⟩ := p
        obtain rfl : a = k := hp
        obtain rfl : b = slot := Option.some.inj hl
        rfl
      subst hps
      rw [List.filter_cons, if_pos hq, List.countP_cons]
      have hknotin : ∀ a ∈ r, a.1 ≠ k := by
        intro a ha hak
        have hmem : k ∈ keys r := by
          rw [← hak]
          exact List.mem_map_of_mem (fun p => p.1) ha
        exact (List.nodup_cons.mp hnd2).1 hmem
      rw [countP_key_zero r k q hknotin]
      simp
    · rw [if_neg hp] at hl
      have hnd3 : (keys r).Nodup := (List.nodup_cons.mp hnd2).2
      rw [List.filter_cons]
      by_cases hqe : q p = true
      · rw [if_pos hqe, List.countP_cons, ih hnd3 hl]
        simp [hp]
      · rw [if_neg hqe]
        exact ih hnd3 hl

end SweepLemmas

section SweepSpec

theorem monitorSweep_gt (st : BotState) (now : Nat) (closeOk resetOk : Key → Bool)
    (h : 10 < assignedCount st.bots) :
    monitorSweep now closeOk resetOk st =
      ({ st with bots := (keys (idleCallerEntries now st.bots)).foldl removeStep st.bots },
        (idleCallerEntries now st.bots).map
          (fun p => Event.closeAttempt p.1 p.2.agent (closeOk p.1))) := by
  unfold monitorSweep
  rw [if_pos h]

theorem monitorSweep_le (st : BotState) (now : Nat) (closeOk resetOk : Key → Bool)
    (h : ¬ 10 < assignedCount st.bots) :
    monitorSweep now closeOk resetOk st =
      ({ st with bots :=
          ((keys (idleCallerEntries now st.bots)).foldl (convertStep now resetOk)
            (st.bots, [])).1 },
        ((keys (idleCallerEntries now st.bots)).foldl (convertStep now resetOk)
          (st.bots, [])).2) := by
  unfold monitorSweep
  rw [if_neg h]

theorem mem_idleCallerEntries (st : BotState) (now : Nat) (phone : String)
    (slot : Slot) (hl : lookup st.bots (.caller phone) = some slot)
    (hidle : isIdle now slot = true) :
    (Key.caller phone, slot) ∈ idleCallerEntries now st.bots := by
  apply List.mem_filter.mpr
  refine ⟨mem_of_lookup_eq_some hl, ?_⟩
  simp [Key.isPool, hidle]

theorem idleCallerEntries_keys_not_pool (st : BotState) (now : Nat) :
    ∀ x ∈ keys (idleCallerEntries now st.bots), x.isPool = false := by
  intro x hx
  obtain ⟨p, hp, rfl⟩ := List.mem_map.mp hx
  have hpred := (List.mem_filter.mp hp).2
  cases hb : p.1.isPool
  · rfl
  · rw [hb] at hpred
    simp at hpred

/-- Close path of one sweep (snapshot count above 10): an idle caller
slot is deleted from the registry, its agent's close is attempted
exactly once (with whatever outcome the close has), and no reset signal
is issued by the sweep. -/
theorem monitorSweep_close_spec (st : BotState) (now : Nat)
    (closeOk resetOk : Key → Bool) (phone : String) (slot : Slot)
    (hnd : (keys st.bots).Nodup)
    (hl : lookup st.bots (.caller phone) = some slot)
    (hidle : isIdle now slot = true)
    (hcnt : 10 < assignedCount st.bots) :
    lookup (monitorSweep now closeOk resetOk st).1.bots (.caller phone) = none ∧
    Event.closeAttempt (.caller phone) slot.agent (closeOk (.caller phone))
      ∈ (monitorSweep now closeOk resetOk st).2 ∧
    ((monitorSweep now closeOk resetOk st).2).countP (isCloseOf (.caller phone)) = 1 ∧
    ∀ k a ok, Event.resetSignal k a ok ∉ (monitorSweep now closeOk resetOk st).2 := by
  rw [monitorSweep_gt st now closeOk resetOk hcnt]
  have hmem := mem_idleCallerEntries st now phone slot hl hidle
  refine ⟨?_, ?_, ?_, ?_⟩
  · exact removeFold_mem _ _ _ (List.mem_map_of_mem (fun p => p.1) hmem)
  · exact List.mem_map_of_mem _ hmem
  · show ((idleCallerEntries now st.bots).map _).countP _ = 1
    rw [countP_isCloseOf_map]
    exact countP_key_filter_one st.bots _ (.caller phone) slot hnd hl
      (by simp [Key.isPool, hidle])
  · intro k a ok hmem2
    obtain ⟨p, _, hp⟩ := List.mem_map.mp hmem2
    exact Event.noConfusion hp

/-- Recycle path of one sweep (snapshot count at most 10): an idle
caller slot is deleted, its agent reappears under a pool key that was
not previously in the pool namespace, with `last_activity` refreshed to
the sweep time and `active=true`; the reset signal is sent exactly once
(its response is discarded) and no close is attempted by the sweep. -/
theorem monitorSweep_recycle_spec (st : BotState) (now : Nat)
    (closeOk resetOk : Key → Bool) (phone : String) (slot : Slot)
    (hl : lookup st.bots (.caller phone) = some slot)
    (hidle : isIdle now slot = true)
    (hcnt : ¬ 10 < assignedCount st.bots) :
    lookup (monitorSweep now closeOk resetOk st).1.bots (.caller phone) = none ∧
    (∃ idx, idx ∉ poolIdxs st.bots ∧
      lookup (monitorSweep now closeOk resetOk st).1.bots (.pool idx)
        = some ⟨now, slot.agent, true⟩) ∧
    Event.resetSignal (.caller phone) slot.agent (resetOk (.caller phone))
      ∈ (monitorSweep now closeOk resetOk st).2 ∧
    ((monitorSweep now closeOk resetOk st).2).countP (isResetOf (.caller phone)) = 1 ∧
    ∀ k a ok, Event.closeAttempt k a ok ∉ (monitorSweep now closeOk resetOk st).2 := by
  rw [monitorSweep_le st now closeOk resetOk hcnt]
  have hmem := mem_idleCallerEntries st now phone slot hl hidle
  have hspec := convertFold_spec now resetOk (keys (idleCallerEntries now st.bots))
    (st.bots, []) (.caller phone) slot (List.mem_map_of_mem (fun p => p.1) hmem)
    (idleCallerEntries_keys_not_pool st now) hl
  refine ⟨hspec.1, hspec.2.1, hspec.2.2.1, ?_, ?_⟩
  · rw [hspec.2.2.2]
    rfl
  · exact convertFold_no_close now resetOk _ _ (fun k a ok h => by simp at h)

end SweepSpec

/-- C2: on each Idle Monitor sweep, for a caller slot idle past the
20-minute threshold, the policy is decided by the `assigned_count`
snapshot taken once at the start of the sweep: above 10 the slot is
deleted and its agent's close path is invoked exactly once (and no
context reset is sent); at 10 or fewer the slot is moved to a new pool
key with `last_activity` refreshed and `active=true`, the context-reset
signal is sent exactly once (its response discarded), and no close is
invoked. -/
theorem idle_close_vs_recycle (st : BotState) (now : Nat)
    (closeOk resetOk : Key → Bool) (phone : String) (slot : Slot)
    (hnd : (keys st.bots).Nodup)
    (hl : lookup st.bots (.caller phone) = some slot)
    (hidle : isIdle now slot = true) :
    (10 < assignedCount st.bots →
      lookup (monitorSweep now closeOk resetOk st).1.bots (.caller phone) = none ∧
      Event.closeAttempt (.caller phone) slot.agent (closeOk (.caller phone))
        ∈ (monitorSweep now closeOk resetOk st).2 ∧
      ((monitorSweep now closeOk resetOk st).2).countP (isCloseOf (.caller phone)) = 1 ∧
      (∀ k a ok, Event.resetSignal k a ok ∉ (monitorSweep now closeOk resetOk st).2)) ∧
    (assignedCount st.bots ≤ 10 →
      lookup (monitorSweep now closeOk resetOk st).1.bots (.caller phone) = none ∧
      (∃ idx, idx ∉ poolIdxs st.bots ∧
        lookup (monitorSweep now closeOk resetOk st).1.bots (.pool idx)
          = some ⟨now, slot.agent, true⟩) ∧
      Event.resetSignal (.caller phone) slot.agent (resetOk (.caller phone))
        ∈ (monitorSweep now closeOk resetOk st).2 ∧
      ((monitorSweep now closeOk resetOk st).2).countP (isResetOf (.caller phone)) = 1 ∧
      (∀ k a ok, Event.closeAttempt k a ok ∉ (monitorSweep now closeOk resetOk st).2)) :=
  ⟨fun hcnt => monitorSweep_close_spec st now closeOk resetOk phone slot hnd hl hidle hcnt,
   fun hcnt => monitorSweep_recycle_spec st now closeOk resetOk phone slot hl hidle
     (by omega)⟩

/-- Witness for C2 at `sweepWitnessState` (2 assigned callers, so the
recycle branch applies to the idle caller `222`, agent 2). -/
theorem idle_close_vs_recycle_witness :
    ∃ idx, idx ∉ poolIdxs sweepWitnessState.bots ∧
      lookup (monitorSweep 2000 (fun _ => true) (fun _ => true)
          sweepWitnessState).1.bots (.pool idx) = some ⟨2000, 2, true⟩ :=
  ((idle_close_vs_recycle sweepWitnessState 2000 (fun _ => true) (fun _ => true)
    "222" ⟨0, 2, false⟩ (by decide) (by decide) (by decide)).2 (by decide)).2.1

/-- C7: best-effort close cleanup.  On the close path, whatever the
outcome of the agent's `close()` — in particular when it raises
(`closeOk` yields `false`, the failure being logged) — the sweep does
not propagate the failure and the slot is still deleted from the
registry: the close attempt is recorded with its failure outcome and the
registry entry is gone. -/
theorem close_failure_still_deletes (st : BotState) (now : Nat)
    (closeOk resetOk : Key → Bool) (phone : String) (slot : Slot)
    (hnd : (keys st.bots).Nodup)
    (hl : lookup st.bots (.caller phone) = some slot)
    (hidle : isIdle now slot = true)
    (hcnt : 10 < assignedCount st.bots)
    (hfail : closeOk (.caller phone) = false) :
    lookup (monitorSweep now closeOk resetOk st).1.bots (.caller phone) = none ∧
    Event.closeAttempt (.caller phone) slot.agent false
      ∈ (monitorSweep now closeOk resetOk st).2 := by
  have h := monitorSweep_close_spec st now closeOk resetOk phone slot hnd hl hidle hcnt
  exact ⟨h.1, by rw [← hfail]; exact h.2.1⟩

/-- Witness for C7 at `closeWitnessState` (12 assigned callers, `p12`
idle, close always failing): the slot is deleted anyway. -/
theorem close_failure_still_deletes_witness :
    lookup (monitorSweep 2000 (fun _ => false) (fun _ => true)
        closeWitnessState).1.bots (.caller "p12") = none ∧
    Event.closeAttempt (.caller "p12") 12 false
      ∈ (monitorSweep 2000 (fun _ => false) (fun _ => true) closeWitnessState).2 :=
  close_failure_still_deletes closeWitnessState 2000 (fun _ => false) (fun _ => true)
    "p12" ⟨0, 12, false⟩ (by decide) (by decide) (by decide) (by decide) rfl

/-- C10 (implicit): the Idle Monitor ignores the `active` flag.  A
deactivated (paused) caller slot whose timestamp is stale beyond the
threshold is reclaimed all the same: above the snapshot count it is
closed and deleted, otherwise it is recycled into the pool — and the
recycle path unconditionally sets `active` back to `true` on the new
pool slot, resetting or destroying the paused conversation's agent. -/
theorem monitor_ignores_active_flag (st : BotState) (now : Nat)
    (closeOk resetOk : Key → Bool) (phone : String) (slot : Slot)
    (hnd : (keys st.bots).Nodup)
    (hl : lookup st.bots (.caller phone) = some slot)
    (hidle : isIdle now slot = true)
    (hpaused : slot.active = false) :
    (10 < assignedCount st.bots →
      lookup (monitorSweep now closeOk resetOk st).1.bots (.caller phone) = none ∧
      Event.closeAttempt (.caller phone) slot.agent (closeOk (.caller phone))
        ∈ (monitorSweep now closeOk resetOk st).2) ∧
    (assignedCount st.bots ≤ 10 →
      lookup (monitorSweep now closeOk resetOk st).1.bots (.caller phone) = none ∧
      (∃ idx, lookup (monitorSweep now closeOk resetOk st).1.bots (.pool idx)
          = some ⟨now, slot.agent, true⟩) ∧
      Event.resetSignal (.caller phone) slot.agent (resetOk (.caller phone))
        ∈ (monitorSweep now closeOk resetOk st).2) := by
  refine ⟨fun hcnt => ?_, fun hcnt => ?_⟩
  · have h := monitorSweep_close_spec st now closeOk resetOk phone slot hnd hl hidle hcnt
    exact ⟨h.1, h.2.1⟩
  · have h := monitorSweep_recycle_spec st now closeOk resetOk phone slot hl hidle (by omega)
    obtain ⟨idx, _, hidx⟩ := h.2.1
    exact ⟨h.1, ⟨idx, hidx⟩, h.2.2.1⟩

/-- Witness for C10 at `sweepWitnessState`: caller `222` is paused
(`active=false`) and stale; the sweep still reclaims it, and its agent
reappears on a pool slot with `active=true`. -/
theorem monitor_ignores_active_flag_witness :
    lookup (monitorSweep 2000 (fun _ => true) (fun _ => true)
        sweepWitnessState).1.bots (.caller "222") = none ∧
    ∃ idx, lookup (monitorSweep 2000 (fun _ => true) (fun _ => true)
        sweepWitnessState).1.bots (.pool idx) = some ⟨2000, 2, true⟩ := by
  have h := (monitor_ignores_active_flag sweepWitnessState 2000 (fun _ => true)
    (fun _ => true) "222" ⟨0, 2, false⟩ (by decide) (by decide) (by decide) rfl).2
    (by decide)
  exact ⟨h.1, h.2.1⟩

section SeqInvLemmas

theorem eq_caller_of_not_isPool (k : Key) (h : k.isPool = false) :
    ∃ ph, k = Key.caller ph := by
  cases k with
  | pool i => simp [Key.isPool] at h
  | caller ph => exact ⟨ph, rfl⟩

theorem eq_pool_of_isPool (k : Key) (h : k.isPool = true) :
    ∃ i, k = Key.pool i := by
  cases k with
  | pool i => exact ⟨i, rfl⟩
  | caller ph => simp [Key.isPool] at h

theorem nodup_append_singleton {α : Type} (l : List α) (a : α)
    (hnd : l.Nodup) (ha : a ∉ l) : (l ++ [a]).Nodup := by
  induction l with
  | nil => simp
  | cons x l ih =>
    rw [List.cons_append, List.nodup_cons]
    obtain ⟨hx, hl⟩ := List.nodup_cons.mp hnd
    refine ⟨?_, ih hl (fun hm => ha (List.mem_cons_of_mem _ hm))⟩
    intro hmem
    rcases List.mem_append.mp hmem with hL | hR
    · exact hx hL
    · rw [List.mem_singleton] at hR
      exact ha (hR ▸ List.mem_cons_self _ _)

theorem succ_foldr_max_not_mem (l : List Nat) : l.foldr max 0 + 1 ∉ l := by
  intro h
  have := le_foldr_max _ l h
  omega

theorem maintainBotPool_bots (st : BotState) :
    (maintainBotPool st).1.bots = st.bots := by
  unfold maintainBotPool
  split <;> rfl

theorem maintainBotPool_nextAgent (st : BotState) :
    (maintainBotPool st).1.nextAgent = st.nextAgent := by
  unfold maintainBotPool
  split <;> rfl

theorem maintainBotPool_pending_low (st : BotState)
    (h : (poolIdxs st.bots).length < 3) :
    (maintainBotPool st).1.pending = st.pending ++ [maxPoolIdx st.bots + 1] := by
  unfold maintainBotPool
  rw [if_pos h]

theorem maintainBotPool_pending_high (st : BotState)
    (h : ¬ (poolIdxs st.bots).length < 3) :
    (maintainBotPool st).1.pending = st.pending := by
  unfold maintainBotPool
  rw [if_neg h]

theorem createBotResolve_nil (now : Nat) (ok : Bool) (st : BotState)
    (h : st.pending = []) : createBotResolve now ok st = (st, []) := by
  unfold createBotResolve
  rw [h]

theorem createBotResolve_cons_true (now : Nat) (st : BotState) (n : Nat)
    (rest : List Nat) (h : st.pending = n :: rest) :
    createBotResolve now true st =
      ({ st with bots := dictInsert st.bots (.pool n) ⟨now, st.nextAgent, true⟩, pending := rest, nextAgent := st.nextAgent + 1 },
        [.created n st.nextAgent]) := by
  unfold createBotResolve
  rw [h]
  rfl

theorem assignStage_existing (st : BotState) (phone : String)
    (h : (lookup st.bots (.caller phone)).isSome) :
    assignStage phone st = (st, []) := by
  unfold assignStage
  rw [if_pos h]

theorem assignStage_new (st : BotState) (phone : String)
    (h : ¬ (lookup st.bots (.caller phone)).isSome) :
    assignStage phone st = assignBotToUser phone st := by
  unfold assignStage
  rw [if_neg h]

theorem assignBotToUser_of_find_none (st : BotState) (phone : String)
    (hf : st.bots.find? (fun p => p.1.isPool) = none) :
    assignBotToUser phone st = (st, []) := by
  unfold assignBotToUser
  rw [hf]

theorem assignBotToUser_of_find_some (st : BotState) (phone : String) (i : Nat)
    (slot : Slot)
    (hf : st.bots.find? (fun p => p.1.isPool) = some (.pool i, slot)) :
    assignBotToUser phone st =
      ((maintainBotPool { st with bots := dictInsert (dictDelete st.bots (.pool i)) (.caller phone) slot }).1,
        [Event.assigned i phone] ++
        (maintainBotPool { st with bots := dictInsert (dictDelete st.bots (.pool i)) (.caller phone) slot }).2) := by
  unfold assignBotToUser
  rw [hf]

theorem processUserMessage_registry (st : BotState) (phone : String) (now : Nat) :
    keys (processUserMessage phone now st).1.bots = keys (assignStage phone st).1.bots ∧
    poolIdxs (processUserMessage phone now st).1.bots
      = poolIdxs (assignStage phone st).1.bots ∧
    (processUserMessage phone now st).1.pending = (assignStage phone st).1.pending ∧
    (processUserMessage phone now st).1.nextAgent = (assignStage phone st).1.nextAgent := by
  cases hl : lookup (assignStage phone st).1.bots (.caller phone) with
  | none =>
    unfold processUserMessage
    simp [hl]
  | some slot =>
    unfold processUserMessage
    simp only [hl]
    by_cases ha : slot.active
    · rw [if_pos ha]
      exact ⟨keys_dictInsert_mem _ _ _ (by rw [hl]; rfl),
        poolIdxs_dictInsert_mem _ _ _ (by rw [hl]; rfl), rfl, rfl⟩
    · rw [if_neg ha]
      exact ⟨rfl, rfl, rfl, rfl⟩

theorem find?_pool_none_poolIdxs (r : Registry)
    (h : r.find? (fun p => p.1.isPool) = none) : poolIdxs r = [] := by
  induction r with
  | nil => rfl
  | cons p r ih =>
    obtain ⟨a, b⟩ := p
    cases hb : a.isPool
    · obtain ⟨ph, rfl⟩ := eq_caller_of_not_isPool a hb
      rw [poolIdxs_cons_caller]
      apply ih
      have hcons : List.find? (fun q => q.1.isPool) ((Key.caller ph, b) :: r)
          = List.find? (fun q => q.1.isPool) r :=
        List.find?_cons_of_neg _ (by simp [Key.isPool])
      rw [hcons] at h
      exact h
    · obtain ⟨i, rfl⟩ := eq_pool_of_isPool a hb
      have hcons : List.find? (fun q => q.1.isPool) ((Key.pool i, b) :: r)
          = some (Key.pool i, b) :=
        List.find?_cons_of_pos _ (by simp [Key.isPool])
      rw [hcons] at h
      cases h

theorem find?_pool_some_spec (r : Registry) (k : Key) (slot : Slot)
    (hnd : (keys r).Nodup)
    (h : r.find? (fun p => p.1.isPool) = some (k, slot)) :
    ∃ i, k = Key.pool i ∧ lookup r k = some slot ∧
      poolIdxs r = i :: poolIdxs (dictDelete r k) := by
  induction r with
  | nil => cases h
  | cons p r ih =>
    obtain ⟨a, b⟩ := p
    have hnd2 : (a :: keys r).Nodup := hnd
    cases hb : a.isPool
    · obtain ⟨ph, rfl⟩ := eq_caller_of_not_isPool a hb
      have hcons : List.find? (fun q => q.1.isPool) ((Key.caller ph, b) :: r)
          = List.find? (fun q => q.1.isPool) r :=
        List.find?_cons_of_neg _ (by simp [Key.isPool])
      rw [hcons] at h
      obtain ⟨i, hk, hlook, hpool⟩ := ih (List.nodup_cons.mp hnd2).2 h
      refine ⟨i, hk, ?_, ?_⟩
      · rw [lookup_cons, if_neg (by rw [hk]; simp)]
        exact hlook
      · rw [poolIdxs_cons_caller]
        have hdel : dictDelete ((Key.caller ph, b) :: r) k
            = (Key.caller ph, b) :: dictDelete r k := by
          unfold dictDelete
          rw [List.filter_cons, if_pos (by rw [hk]; simp)]
        rw [hdel, poolIdxs_cons_caller]
        exact hpool
    · obtain ⟨i, rfl⟩ := eq_pool_of_isPool a hb
      have hcons : List.find? (fun q => q.1.isPool) ((Key.pool i, b) :: r)
          = some (Key.pool i, b) :=
        List.find?_cons_of_pos _ (by simp [Key.isPool])
      rw [hcons] at h
      have hps : (Key.pool i, b) = (k, slot) := Option.some.inj h
      obtain ⟨rfl, rfl⟩ : Key.pool i = k ∧ b = slot := Prod.mk.inj hps
      refine ⟨i, rfl, by rw [lookup_cons, if_pos rfl], ?_⟩
      rw [poolIdxs_cons_pool]
      have hnotin : Key.pool i ∉ keys r := (List.nodup_cons.mp hnd2).1
      have hdel : dictDelete ((Key.pool i, b) :: r) (Key.pool i)
          = dictDelete r (Key.pool i) := by
        unfold dictDelete
        rw [List.filter_cons, if_neg (by simp)]
      rw [hdel, dictDelete_eq_self_of_not_mem r _ hnotin]

theorem processBotCommand_cases (st : BotState) (phone text : String) :
    (processBotCommand phone text st).1 = st ∨
    ∃ slot b, lookup st.bots (.caller phone) = some slot ∧
      (processBotCommand phone text st).1 =
        { st with bots := dictInsert st.bots (.caller phone) { slot with active := b } } := by
  unfold processBotCommand
  by_cases ht : text = "/start"
  · rw [if_pos ht]
    cases hl : lookup st.bots (.caller phone) with
    | none => exact Or.inl rfl
    | some slot => exact Or.inr ⟨slot, true, rfl, rfl⟩
  · rw [if_neg ht]
    cases hl : lookup st.bots (.caller phone) with
    | none => exact Or.inl rfl
    | some slot => exact Or.inr ⟨slot, false, rfl, rfl⟩

theorem processBotCommand_pending (st : BotState) (phone text : String) :
    (processBotCommand phone text st).1.pending = st.pending := by
  unfold processBotCommand
  by_cases ht : text = "/start"
  · rw [if_pos ht]
    cases lookup st.bots (.caller phone) <;> rfl
  · rw [if_neg ht]
    cases lookup st.bots (.caller phone) <;> rfl

theorem handleCustomerData_registry (phone : String) (db : Option Nat)
    (st : BotState) :
    (handleCustomerData phone db st).1.bots = st.bots ∧
    (handleCustomerData phone db st).1.pending = st.pending := by
  cases hc : cacheLookup st.customerCache phone with
  | some cid => rw [handleCustomerData_hit phone db st cid hc]; exact ⟨rfl, rfl⟩
  | none =>
    cases db with
    | some cid => rw [handleCustomerData_miss_store phone st cid hc]; exact ⟨rfl, rfl⟩
    | none => rw [handleCustomerData_miss_none phone st hc]; exact ⟨rfl, rfl⟩

end SeqInvLemmas

section SeqInvPreservation

theorem removeStep_poolIdxs (b : Registry) (x : Key) (hx : x.isPool = false) :
    poolIdxs (removeStep b x) = poolIdxs b := by
  obtain ⟨ph, rfl⟩ := eq_caller_of_not_isPool x hx
  unfold removeStep
  by_cases hs : (lookup b (Key.caller ph)).isSome
  · rw [if_pos hs]
    exact poolIdxs_dictDelete_caller b ph
  · rw [if_neg hs]

theorem removeStep_nodup (b : Registry) (x : Key) (h : (keys b).Nodup) :
    (keys (removeStep b x)).Nodup := by
  unfold removeStep
  by_cases hs : (lookup b x).isSome
  · rw [if_pos hs]
    exact nodup_keys_dictDelete b x h
  · rw [if_neg hs]
    exact h

theorem removeFold_registry_inv (ks : List Key) :
    ∀ b : Registry, (∀ x ∈ ks, x.isPool = false) → (keys b).Nodup →
      poolIdxs (ks.foldl removeStep b) = poolIdxs b ∧
      (keys (ks.foldl removeStep b)).Nodup := by
  induction ks with
  | nil => intro b _ h; exact ⟨rfl, h⟩
  | cons x ks ih =>
    intro b hks h
    rw [List.foldl_cons]
    have hx := hks x (List.mem_cons_self _ _)
    have hrec := ih (removeStep b x) (fun y hy => hks y (List.mem_cons_of_mem _ hy))
      (removeStep_nodup b x h)
    exact ⟨by rw [hrec.1, removeStep_poolIdxs b x hx], hrec.2⟩

theorem convertStep_registry_inv (now : Nat) (resetOk : Key → Bool)
    (acc : Registry × List Event) (x : Key) (hx : x.isPool = false)
    (hnd : (keys acc.1).Nodup) (hpw : (poolIdxs acc.1).Pairwise (· < ·)) :
    (keys (convertStep now resetOk acc x).1).Nodup ∧
    (poolIdxs (convertStep now resetOk acc x).1).Pairwise (· < ·) ∧
    (poolIdxs acc.1).length ≤ (poolIdxs (convertStep now resetOk acc x).1).length := by
  cases hl : lookup acc.1 x with
  | none =>
    rw [convertStep_of_none now resetOk acc x hl]
    exact ⟨hnd, hpw, le_refl _⟩
  | some slot =>
    rw [convertStep_of_some now resetOk acc x slot hl]
    have hnmem : Key.pool (convertNextIdx acc.1) ∉ keys acc.1 :=
      fun hm => convertNextIdx_not_mem acc.1 ((mem_poolIdxs_iff _ _).mpr hm)
    have hnl : ¬ (lookup acc.1 (.pool (convertNextIdx acc.1))).isSome :=
      fun hs => hnmem ((lookup_isSome_iff_mem _ _).mp hs)
    have hkeys2 := keys_dictInsert_not_mem acc.1 (.pool (convertNextIdx acc.1))
      ⟨now, slot.agent, true⟩ hnl
    have hpool2 := poolIdxs_dictInsert_pool_not_mem acc.1 (convertNextIdx acc.1)
      ⟨now, slot.agent, true⟩ hnl
    obtain ⟨ph, rfl⟩ := eq_caller_of_not_isPool x hx
    refine ⟨?_, ?_, ?_⟩
    · apply nodup_keys_dictDelete
      rw [hkeys2]
      exact nodup_append_singleton _ _ hnd hnmem
    · show (poolIdxs (dictDelete (dictInsert _ _ _) (Key.caller ph))).Pairwise (· < ·)
      rw [poolIdxs_dictDelete_caller, hpool2, List.pairwise_append]
      refine ⟨hpw, List.pairwise_singleton _ _, ?_⟩
      intro a ha c hc
      rw [List.mem_singleton] at hc
      subst hc
      unfold convertNextIdx
      rw [if_neg (by
        intro he
        rw [List.isEmpty_iff] at he
        rw [he] at ha
        simp at ha)]
      have := le_maxPoolIdx acc.1 a ha
      omega
    · show (poolIdxs acc.1).length
        ≤ (poolIdxs (dictDelete (dictInsert _ _ _) (Key.caller ph))).length
      rw [poolIdxs_dictDelete_caller, hpool2, List.length_append]
      simp

theorem convertFold_registry_inv (now : Nat) (resetOk : Key → Bool) (ks : List Key) :
    ∀ acc : Registry × List Event, (∀ x ∈ ks, x.isPool = false) →
      (keys acc.1).Nodup → (poolIdxs acc.1).Pairwise (· < ·) →
      (keys (ks.foldl (convertStep now resetOk) acc).1).Nodup ∧
      (poolIdxs (ks.foldl (convertStep now resetOk) acc).1).Pairwise (· < ·) ∧
      (poolIdxs acc.1).length
        ≤ (poolIdxs (ks.foldl (convertStep now resetOk) acc).1).length := by
  induction ks with
  | nil => intro acc _ h1 h2; exact ⟨h1, h2, le_refl _⟩
  | cons x ks ih =>
    intro acc hks h1 h2
    rw [List.foldl_cons]
    have hx := hks x (List.mem_cons_self _ _)
    have hstep := convertStep_registry_inv now resetOk acc x hx h1 h2
    have hrec := ih (convertStep now resetOk acc x)
      (fun y hy => hks y (List.mem_cons_of_mem _ hy)) hstep.1 hstep.2.1
    exact ⟨hrec.1, hrec.2.1, le_trans hstep.2.2 hrec.2.2⟩

theorem seqInv_sweep (st : BotState) (now : Nat) (closeOk resetOk : Key → Bool)
    (h : SeqInv st) : SeqInv (monitorSweep now closeOk resetOk st).1 := by
  obtain ⟨hpend, hlen, hnd, hpw⟩ := h
  have hnp := idleCallerEntries_keys_not_pool st now
  by_cases hcnt : 10 < assignedCount st.bots
  · rw [monitorSweep_gt st now closeOk resetOk hcnt]
    have hrem := removeFold_registry_inv (keys (idleCallerEntries now st.bots))
      st.bots hnp hnd
    refine ⟨hpend, ?_, hrem.2, ?_⟩
    · show 3 ≤ (poolIdxs ((keys (idleCallerEntries now st.bots)).foldl
        removeStep st.bots)).length
      rw [hrem.1]
      exact hlen
    · show (poolIdxs ((keys (idleCallerEntries now st.bots)).foldl
        removeStep st.bots)).Pairwise (· < ·)
      rw [hrem.1]
      exact hpw
  · rw [monitorSweep_le st now closeOk resetOk hcnt]
    have hconv := convertFold_registry_inv now resetOk
      (keys (idleCallerEntries now st.bots)) (st.bots, []) hnp hnd hpw
    exact ⟨hpend, le_trans hlen hconv.2.2, hconv.1, hconv.2.1⟩

theorem seqInv_command (st : BotState) (phone text : String) (h : SeqInv st) :
    SeqInv (processBotCommand phone text st).1 := by
  obtain ⟨hpend, hlen, hnd, hpw⟩ := h
  rcases processBotCommand_cases st phone text with heq | ⟨slot, bb, hl, heq⟩
  · rw [heq]
    exact ⟨hpend, hlen, hnd, hpw⟩
  · rw [heq]
    have hsome : (lookup st.bots (.caller phone)).isSome := by rw [hl]; rfl
    refine ⟨hpend, ?_, ?_, ?_⟩
    · show 3 ≤ (poolIdxs (dictInsert st.bots (.caller phone)
        { slot with active := bb })).length
      rw [poolIdxs_dictInsert_mem _ _ _ hsome]
      exact hlen
    · show (keys (dictInsert st.bots (.caller phone)
        { slot with active := bb })).Nodup
      rw [keys_dictInsert_mem _ _ _ hsome]
      exact hnd
    · show (poolIdxs (dictInsert st.bots (.caller phone)
        { slot with active := bb })).Pairwise (· < ·)
      rw [poolIdxs_dictInsert_mem _ _ _ hsome]
      exact hpw

theorem seqInv_customer (st : BotState) (phone : String) (db : Option Nat)
    (h : SeqInv st) : SeqInv (handleCustomerData phone db st).1 := by
  obtain ⟨hb, hp⟩ := handleCustomerData_registry phone db st
  exact ⟨by rw [hp]; exact h.1, by rw [hb]; exact h.2.1,
    by rw [hb]; exact h.2.2.1, by rw [hb]; exact h.2.2.2⟩

end SeqInvPreservation

section SeqInvMsg

theorem seqInv_msg (st : BotState) (phone : String) (now now2 : Nat)
    (h : SeqInv st) :
    SeqInv (createBotResolve now2 true (processUserMessage phone now st).1).1 := by
  obtain ⟨hpend, hlen, hnd, hpw⟩ := h
  obtain ⟨hkeys, hpool, hpend2, _⟩ := processUserMessage_registry st phone now
  by_cases hex : (lookup st.bots (.caller phone)).isSome
  · -- existing caller: the registry key set and pending queue are untouched
    rw [assignStage_existing st phone hex] at hkeys hpool hpend2
    have hpendP : (processUserMessage phone now st).1.pending = [] := by
      rw [hpend2]
      exact hpend
    rw [createBotResolve_nil now2 true _ hpendP]
    refine ⟨hpendP, ?_, ?_, ?_⟩
    · rw [hpool]
      exact hlen
    · rw [hkeys]
      exact hnd
    · rw [hpool]
      exact hpw
  · -- new caller
    rw [assignStage_new st phone hex] at hkeys hpool hpend2
    cases hf : st.bots.find? (fun p => p.1.isPool) with
    | none =>
      rw [assignBotToUser_of_find_none st phone hf] at hkeys hpool hpend2
      have hpendP : (processUserMessage phone now st).1.pending = [] := by
        rw [hpend2]
        exact hpend
      rw [createBotResolve_nil now2 true _ hpendP]
      refine ⟨hpendP, ?_, ?_, ?_⟩
      · rw [hpool]
        exact hlen
      · rw [hkeys]
        exact hnd
      · rw [hpool]
        exact hpw
    | some p0 =>
      obtain ⟨k0, slot0⟩ := p0
      have hk0 := List.find?_some hf
      obtain ⟨i0, rfl⟩ := eq_pool_of_isPool k0 hk0
      obtain ⟨i, hki, hlook, hpooldec⟩ := find?_pool_some_spec st.bots _ _ hnd hf
      obtain rfl : i = i0 := (Key.pool.inj hki).symm
      rw [assignBotToUser_of_find_some st phone i slot0 hf] at hkeys hpool hpend2
      rw [maintainBotPool_bots] at hkeys hpool
      -- facts about the post-assignment registry
      have hnone : lookup st.bots (.caller phone) = none :=
        Option.not_isSome_iff_eq_none.mp hex
      have hlookB1 : lookup (dictDelete st.bots (.pool i)) (.caller phone) = none := by
        rw [lookup_dictDelete, if_neg (by simp)]
        exact hnone
      have hnotB1 : ¬ (lookup (dictDelete st.bots (.pool i)) (.caller phone)).isSome := by
        rw [hlookB1]
        simp
      have hpoolB2 : poolIdxs (dictInsert (dictDelete st.bots (.pool i))
            (.caller phone) slot0)
          = poolIdxs (dictDelete st.bots (.pool i)) :=
        poolIdxs_dictInsert_caller_not_mem _ _ _ hnotB1
      have hndB2 : (keys (dictInsert (dictDelete st.bots (.pool i))
            (.caller phone) slot0)).Nodup := by
        rw [keys_dictInsert_not_mem _ _ _ hnotB1]
        exact nodup_append_singleton _ _ (nodup_keys_dictDelete _ _ hnd)
          (fun hm => ((lookup_eq_none_iff _ _).mp hlookB1) hm)
      have hpwB1 : (poolIdxs (dictDelete st.bots (.pool i))).Pairwise (· < ·) := by
        have hh := hpw
        rw [hpooldec] at hh
        exact (List.pairwise_cons.mp hh).2
      have hlenB1 : 2 ≤ (poolIdxs (dictDelete st.bots (.pool i))).length := by
        have hh := hlen
        rw [hpooldec, List.length_cons] at hh
        omega
      by_cases hm3 : (poolIdxs ({ st with bots := dictInsert (dictDelete st.bots (.pool i)) (.caller phone) slot0 } : BotState).bots).length < 3
      · -- replenishment scheduled, then resolved
        have hpendP : (processUserMessage phone now st).1.pending
            = [maxPoolIdx (dictInsert (dictDelete st.bots (.pool i))
                (.caller phone) slot0) + 1] := by
          rw [hpend2, maintainBotPool_pending_low _ hm3]
          show st.pending ++ _ = _
          rw [hpend]
          rfl
        rw [createBotResolve_cons_true now2 _ _ [] hpendP]
        have hnmem : Key.pool (maxPoolIdx (dictInsert (dictDelete st.bots (.pool i))
              (.caller phone) slot0) + 1)
            ∉ keys (processUserMessage phone now st).1.bots := by
          intro hm
          have hmm := (mem_poolIdxs_iff _ _).mpr hm
          rw [hpool, hpoolB2] at hmm
          unfold maxPoolIdx at hmm
          rw [hpoolB2] at hmm
          exact succ_foldr_max_not_mem _ hmm
        have hnl : ¬ (lookup (processUserMessage phone now st).1.bots
            (.pool (maxPoolIdx (dictInsert (dictDelete st.bots (.pool i))
              (.caller phone) slot0) + 1))).isSome :=
          fun hs => hnmem ((lookup_isSome_iff_mem _ _).mp hs)
        refine ⟨rfl, ?_, ?_, ?_⟩
        · show 3 ≤ (poolIdxs (dictInsert (processUserMessage phone now st).1.bots _ _)).length
          rw [poolIdxs_dictInsert_pool_not_mem _ _ _ hnl, hpool, hpoolB2,
            List.length_append]
          simp only [List.length_singleton]
          omega
        · show (keys (dictInsert (processUserMessage phone now st).1.bots _ _)).Nodup
          rw [keys_dictInsert_not_mem _ _ _ hnl]
          apply nodup_append_singleton
          · rw [hkeys]
            exact hndB2
          · exact hnmem
        · show (poolIdxs (dictInsert (processUserMessage phone now st).1.bots _ _)).Pairwise (· < ·)
          rw [poolIdxs_dictInsert_pool_not_mem _ _ _ hnl, hpool, hpoolB2,
            List.pairwise_append]
          refine ⟨hpwB1, List.pairwise_singleton _ _, ?_⟩
          intro a ha c hc
          rw [List.mem_singleton] at hc
          subst hc
          unfold maxPoolIdx
          rw [hpoolB2]
          have := le_foldr_max a _ ha
          omega
      · -- enough pool slots remain: nothing scheduled, resolve is a no-op
        have hpendP : (processUserMessage phone now st).1.pending = [] := by
          rw [hpend2, maintainBotPool_pending_high _ hm3]
          exact hpend
        rw [createBotResolve_nil now2 true _ hpendP]
        have hm3' : 3 ≤ (poolIdxs (dictInsert (dictDelete st.bots (.pool i))
            (.caller phone) slot0)).length := le_of_not_lt hm3
        refine ⟨hpendP, ?_, ?_, ?_⟩
        · rw [hpool]
          exact hm3'
        · rw [hkeys]
          exact hndB2
        · rw [hpool, hpoolB2]
          exact hpwB1

end SeqInvMsg

/-- Every sequentially reachable state satisfies the invariant. -/
theorem seqInv_of_seqReachable (st : BotState) (h : SeqReachable st) : SeqInv st := by
  induction h with
  | init =>
    refine ⟨rfl, ?_, ?_, ?_⟩ <;> decide
  | step hr hs ih =>
    cases hs with
    | msg phone now now2 => exact seqInv_msg _ phone now now2 ih
    | sweep now closeOk resetOk => exact seqInv_sweep _ now closeOk resetOk ih
    | command phone text => exact seqInv_command _ phone text ih
    | customer phone dbResult => exact seqInv_customer _ phone dbResult ih

/-- C3 (counterexample): a reachable run in which three callers arrive
while the replenishments they trigger are still in flight.  After every
scheduled replenishment has resolved (pending is empty), the registry
holds only 2 pool slots — below the floor of 3 — because two of the
in-flight creations computed the same key `A4` and one overwrote the
other. -/
theorem pool_floor_violation_cex :
    Reachable cexS6 ∧ cexS6.pending = [] ∧ (poolIdxs cexS6.bots).length = 2 :=
  ⟨reach_cexS6, by decide, by decide⟩

/-- C3 (amended): the pool floor invariant holds for sequential runs:
if every scheduled replenishment resolves (successfully) before the next
operation, then after any sequence of operations the number of
pool-namespace slots is at least 3. -/
theorem pool_floor_sequential (st : BotState) (h : SeqReachable st) :
    3 ≤ (poolIdxs st.bots).length :=
  (seqInv_of_seqReachable st h).2.1

/-- Witness for the amended C3: one assignment from boot, its
replenishment resolved, leaves 3 pool slots. -/
theorem pool_floor_sequential_witness :
    3 ≤ (poolIdxs (createBotResolve 1 true
      (processUserMessage "111" 0 initState).1).1.bots).length :=
  pool_floor_sequential _
    (SeqReachable.step SeqReachable.init (SeqStep.msg initState "111" 0 1))

/-- C5 (counterexample): in the reachable state `cexS6` the pool holds
`A4` (agent 5) before `A1` (agent 6) in dict order, because `A1` was
created by a replenishment that resolved after `A4`'s.  The scheduler
picks `extra_keys[0]` — the first pool key in dict order — so the next
caller `444` receives `A4`'s agent even though the lower index 1 is
present in the pool. -/
theorem fifo_draw_violation_cex :
    Reachable cexS6 ∧
    cexS6.bots.find? (fun p => p.1.isPool) = some (.pool 4, ⟨0, 5, true⟩) ∧
    1 ∈ poolIdxs cexS6.bots ∧
    (lookup (processUserMessage "444" 50 cexS6).1.bots (.caller "444")).map (·.agent)
      = some 5 ∧
    (lookup cexS6.bots (.pool 1)).map (·.agent) = some 6 :=
  ⟨reach_cexS6, by decide, by decide, by decide, by decide⟩

/-- C5 (amended): the scheduler always draws the first pool key in
registry insertion order; in every sequentially reachable state (each
replenishment resolved before the next operation) that key carries the
lowest index among the pool keys present, and the caller receives
exactly that slot; in particular, from the boot pool `A1 A2 A3` the
first caller receives `A1`'s agent and the second receives `A2`'s. -/
theorem fifo_draw_sequential (st : BotState) (phone : String) (i : Nat)
    (slot : Slot) (h : SeqReachable st)
    (hfind : st.bots.find? (fun p => p.1.isPool) = some (.pool i, slot)) :
    (∀ j ∈ poolIdxs st.bots, i ≤ j) ∧
    lookup (assignBotToUser phone st).1.bots (.caller phone) = some slot ∧
    (lookup (processUserMessage "222" 1 (processUserMessage "111" 0
        initState).1).1.bots (.caller "111")).map (·.agent) = some 1 ∧
    (lookup (processUserMessage "222" 1 (processUserMessage "111" 0
        initState).1).1.bots (.caller "222")).map (·.agent) = some 2 := by
  obtain ⟨hpend, hlen, hnd, hpw⟩ := seqInv_of_seqReachable st h
  obtain ⟨i', hki, hlook, hpooldec⟩ := find?_pool_some_spec st.bots _ _ hnd hfind
  obtain rfl : i = i' := Key.pool.inj hki
  refine ⟨?_, ?_, by decide, by decide⟩
  · intro j hj
    rw [hpooldec] at hj
    rw [hpooldec] at hpw
    rcases List.mem_cons.mp hj with rfl | hj
    · exact le_refl _
    · exact le_of_lt ((List.pairwise_cons.mp hpw).1 j hj)
  · rw [assignBotToUser_of_find_some st phone i slot hfind]
    show lookup (maintainBotPool _).1.bots _ = _
    rw [maintainBotPool_bots]
    show lookup (dictInsert _ _ _) _ = _
    rw [lookup_dictInsert, if_pos rfl]

/-- Witness for the amended C5 at the boot state: the draw for caller
`999` selects `A1` (index 1, the minimum) and hands over its agent. -/
theorem fifo_draw_sequential_witness :
    lookup (assignBotToUser "999" initState).1.bots (.caller "999")
      = some ⟨0, 1, true⟩ :=
  (fifo_draw_sequential initState "999" 1 ⟨0, 1, true⟩ SeqReachable.init
    (by decide)).2.1

/-- C6 (counterexample): in the reachable state `cexS3` the pending
replenishment queue is `[4, 4, 1]`: index 4 has been computed twice
(the second assignment ran before the first creation resolved), and
index 1 — used by the boot pool slot `A1` — has been computed again
(the pool was empty, so `max(..., default=0)+1 = 1`).  Resolving the
queue creates two distinct pool slots (agents 4 and 5) under the same
key `A4` (the second silently overwrites the first) and reassigns the
past index 1 (agent 6) after index 4 — indices are neither fresh nor
monotonic. -/
theorem pool_index_reuse_cex :
    Reachable cexS3 ∧
    cexS3.pending = [4, 4, 1] ∧
    (createBotResolve 0 true cexS3).2 = [Event.created 4 4] ∧
    (createBotResolve 0 true cexS4).2 = [Event.created 4 5] ∧
    (createBotResolve 0 true cexS5).2 = [Event.created 1 6] ∧
    lookup initState.bots (.pool 1) = some ⟨0, 1, true⟩ :=
  ⟨reach_cexS3, by decide, by decide, by decide, by decide, by decide⟩

/-- C6 (amended): each replenishment index is computed as one more than
the largest pool index currently in the registry.  In a sequentially
reachable state (no creation in flight) the index a message schedules is
therefore unused among the pool keys present and strictly greater than
every pool index remaining after the draw; duplicate keys and index
reuse arise only when a replenishment is still in flight when the next
index is computed. -/
theorem scheduled_index_fresh (st : BotState) (phone : String) (now : Nat)
    (n : Nat) (h : SeqReachable st)
    (hsched : (processUserMessage phone now st).1.pending = [n]) :
    n ∉ poolIdxs st.bots ∧
    ∀ j ∈ poolIdxs (processUserMessage phone now st).1.bots, j < n := by
  obtain ⟨hpend, hlen, hnd, hpw⟩ := seqInv_of_seqReachable st h
  obtain ⟨hkeys, hpool, hpend2, _⟩ := processUserMessage_registry st phone now
  by_cases hex : (lookup st.bots (.caller phone)).isSome
  · rw [assignStage_existing st phone hex] at hpend2
    rw [hpend2] at hsched
    rw [show ((st, ([] : List Event)) : BotState × List Event).1.pending
        = st.pending from rfl, hpend] at hsched
    cases hsched
  · rw [assignStage_new st phone hex] at hkeys hpool hpend2
    cases hf : st.bots.find? (fun p => p.1.isPool) with
    | none =>
      rw [assignBotToUser_of_find_none st phone hf] at hpend2
      rw [hpend2] at hsched
      rw [show ((st, ([] : List Event)) : BotState × List Event).1.pending
          = st.pending from rfl, hpend] at hsched
      cases hsched
    | some p0 =>
      obtain ⟨k0, slot0⟩ := p0
      have hk0 := List.find?_some hf
      obtain ⟨i0, rfl⟩ := eq_pool_of_isPool k0 hk0
      obtain ⟨i, hki, hlook, hpooldec⟩ := find?_pool_some_spec st.bots _ _ hnd hf
      obtain rfl : i = i0 := (Key.pool.inj hki).symm
      rw [assignBotToUser_of_find_some st phone i slot0 hf] at hkeys hpool hpend2
      rw [maintainBotPool_bots] at hkeys hpool
      have hnone : lookup st.bots (.caller phone) = none :=
        Option.not_isSome_iff_eq_none.mp hex
      have hlookB1 : lookup (dictDelete st.bots (.pool i)) (.caller phone) = none := by
        rw [lookup_dictDelete, if_neg (by simp)]
        exact hnone
      have hnotB1 : ¬ (lookup (dictDelete st.bots (.pool i)) (.caller phone)).isSome := by
        rw [hlookB1]
        simp
      have hpoolB2 : poolIdxs (dictInsert (dictDelete st.bots (.pool i))
            (.caller phone) slot0)
          = poolIdxs (dictDelete st.bots (.pool i)) :=
        poolIdxs_dictInsert_caller_not_mem _ _ _ hnotB1
      have hlenB1 : 2 ≤ (poolIdxs (dictDelete st.bots (.pool i))).length := by
        have hh := hlen
        rw [hpooldec, List.length_cons] at hh
        omega
      by_cases hm3 : (poolIdxs ({ st with bots := dictInsert (dictDelete st.bots (.pool i)) (.caller phone) slot0 } : BotState).bots).length < 3
      · rw [hpend2, maintainBotPool_pending_low _ hm3] at hsched
        have hn : maxPoolIdx (dictInsert (dictDelete st.bots (.pool i))
            (.caller phone) slot0) + 1 = n := by
          have hh : st.pending ++ [maxPoolIdx (dictInsert (dictDelete st.bots (.pool i)) (.caller phone) slot0) + 1] = [n] := hsched
          rw [hpend, List.nil_append] at hh
          exact (List.cons.inj hh).1
        constructor
        · intro hmem
          rw [hpooldec] at hmem
          have hpw2 := hpw
          rw [hpooldec] at hpw2
          rcases List.mem_cons.mp hmem with hni | hmem
          · -- n = i: but n = max(B1)+1 > every element of B1, and B1 has an
            -- element greater than i (sorted, length ≥ 2)
            obtain ⟨j0, hj0⟩ := List.exists_mem_of_length_pos (show
              0 < (poolIdxs (dictDelete st.bots (.pool i))).length by omega)
            have hij : i < j0 := (List.pairwise_cons.mp hpw2).1 j0 hj0
            have hjmax : j0 ≤ maxPoolIdx (dictInsert (dictDelete st.bots (.pool i))
                (.caller phone) slot0) := by
              unfold maxPoolIdx
              rw [hpoolB2]
              exact le_foldr_max j0 _ hj0
            omega
          · have hjmax : n ≤ maxPoolIdx (dictInsert (dictDelete st.bots (.pool i))
                (.caller phone) slot0) := by
              unfold maxPoolIdx
              rw [hpoolB2]
              exact le_foldr_max n _ hmem
            omega
        · intro j hj
          rw [hpool, hpoolB2] at hj
          have hjmax : j ≤ maxPoolIdx (dictInsert (dictDelete st.bots (.pool i))
              (.caller phone) slot0) := by
            unfold maxPoolIdx
            rw [hpoolB2]
            exact le_foldr_max j _ hj
          omega
      · rw [hpend2, maintainBotPool_pending_high _ hm3] at hsched
        rw [show ({ st with bots := dictInsert (dictDelete st.bots (.pool i)) (.caller phone) slot0 } : BotState).pending = st.pending from rfl, hpend] at hsched
        cases hsched

/-- Witness for the amended C6: the first assignment from boot schedules
index 4, which is strictly above the boot pool indices 1, 2, 3. -/
theorem scheduled_index_fresh_witness :
    (4 ∉ poolIdxs initState.bots) ∧
    ∀ j ∈ poolIdxs (processUserMessage "111" 0 initState).1.bots, j < 4 :=
  scheduled_index_fresh initState "111" 0 4 SeqReachable.init (by decide)

end BotManager
